import Mathlib

/-!
Verification development for the quantum state simulator of the QuantumMind
repository.  The simulator operates on a dense state vector of `2 ^ numQubits`
complex amplitudes; the embedding below translates the source functions
(`initializeQuantumState`, `applySingleQubitGate`, `applyCNOTGate`,
`measureQubit`, `getProbabilities`, `formatQuantumState`) into Lean.

Modelling conventions:
* JavaScript floating-point numbers are modelled by the elements of a linear
  ordered field `K`; the theorems instantiate `K := ℝ` (exact reals).
* `Math.sqrt` and `Number.prototype.toFixed` are host platform functions, not
  code of the repository; they are passed as parameters (`sqrt : K → K`,
  `toFixed : K → String`) and instantiated with `Real.sqrt` respectively a
  concrete formatter in the theorems.
* Array reads `a[i]` are modelled by `List.getD i czero` (all reads performed
  by the theorems below are in bounds, where this agrees with JavaScript).
* `Math.random()` is modelled by an explicit parameter `r`.
* The imperative loops write only into the freshly created output array; each
  loop is modelled as a fold over a pair carrying the (read-only) input array
  in the first component and the output array being written in the second,
  exactly mirroring which array each statement of the source reads and writes.
-/

namespace QuantumMind

/-- Complex number: the source interface `Complex` with fields `real`, `imag`. -/
structure Complex (K : Type) where
  real : K
  imag : K
deriving DecidableEq

variable {K : Type} [LinearOrderedField K]

/-- The complex literal `{ real: 0, imag: 0 }`. -/
def czero : Complex K := ⟨0, 0⟩

/-- The complex literal `{ real: 1, imag: 0 }`. -/
def cone : Complex K := ⟨1, 0⟩

namespace complex

/-- Source `complex.add`: componentwise sum. -/
def add (a b : Complex K) : Complex K :=
  ⟨a.real + b.real, a.imag + b.imag⟩

/-- Source `complex.multiply`: `(ac − bd, ad + bc)`. -/
def multiply (a b : Complex K) : Complex K :=
  ⟨a.real * b.real - a.imag * b.imag, a.real * b.imag + a.imag * b.real⟩

/-- Source `complex.magnitude`: `Math.sqrt(c.real * c.real + c.imag * c.imag)`,
with the host `Math.sqrt` passed as the parameter `sqrt`. -/
def magnitude (sqrt : K → K) (c : Complex K) : K :=
  sqrt (c.real * c.real + c.imag * c.imag)

end complex

/-- Source type `QuantumState = Complex[]`. -/
abbrev QuantumState (K : Type) : Type := List (Complex K)

/-- Source type `QuantumGate = Complex[][]`. -/
abbrev QuantumGate (K : Type) : Type := List (List (Complex K))

/-- Matrix entry access `gate[r][c]`. -/
def gAt (gate : QuantumGate K) (r c : Nat) : Complex K :=
  (gate.getD r []).getD c czero

/-- Source `initializeQuantumState`: an array of `2 ^ numQubits` complex zeros
with index 0 set to `{ real: 1, imag: 0 }`. -/
def initializeQuantumState (numQubits : Nat) : QuantumState K :=
  (List.replicate (2 ^ numQubits) czero).set 0 cone

namespace gates

/-- Source `gates.X` (Pauli-X). -/
def X : QuantumGate K :=
  [[⟨0, 0⟩, ⟨1, 0⟩], [⟨1, 0⟩, ⟨0, 0⟩]]

/-- Source `gates.Y` (Pauli-Y). -/
def Y : QuantumGate K :=
  [[⟨0, 0⟩, ⟨0, -1⟩], [⟨0, 1⟩, ⟨0, 0⟩]]

/-- Source `gates.Z` (Pauli-Z). -/
def Z : QuantumGate K :=
  [[⟨1, 0⟩, ⟨0, 0⟩], [⟨0, 0⟩, ⟨-1, 0⟩]]

/-- Source `gates.H` (Hadamard); its entries are `±1 / Math.sqrt(2)`. -/
def H (sqrt : K → K) : QuantumGate K :=
  [[⟨1 / sqrt 2, 0⟩, ⟨1 / sqrt 2, 0⟩], [⟨1 / sqrt 2, 0⟩, ⟨-1 / sqrt 2, 0⟩]]

/-- Source `gates.I` (identity). -/
def I : QuantumGate K :=
  [[⟨1, 0⟩, ⟨0, 0⟩], [⟨0, 0⟩, ⟨1, 0⟩]]

end gates

/-- The bit extraction expression `(i >> p) & 1` used throughout the source. -/
def bitAt (i p : Nat) : Nat := (i >>> p) &&& 1

/-- Body of the loop of `applySingleQubitGate`: reads the input array `state`,
writes index `i` of the output array `newState`. -/
def applySingleQubitGateT (gate : QuantumGate K) (targetQubit numQubits : Nat)
    (state newState : QuantumState K) (i : Nat) : QuantumState K :=
  let targetBit := bitAt i (numQubits - 1 - targetQubit)
  let flippedIndex := i ^^^ (1 <<< (numQubits - 1 - targetQubit))
  let amp0 := complex.multiply (gAt gate targetBit 0)
    (state.getD (if targetBit = 0 then i else flippedIndex) czero)
  let amp1 := complex.multiply (gAt gate targetBit 1)
    (state.getD (if targetBit = 1 then i else flippedIndex) czero)
  newState.set i (complex.add (newState.getD i czero) (complex.add amp0 amp1))

/-- The loop of `applySingleQubitGate` over the pair (input, output); the
output starts as an array of complex zeros of the same length. -/
def applySingleQubitGatePair (state : QuantumState K) (gate : QuantumGate K)
    (targetQubit numQubits : Nat) : QuantumState K × QuantumState K :=
  (List.range state.length).foldl
    (fun p i => (p.1, applySingleQubitGateT gate targetQubit numQubits p.1 p.2 i))
    (state, List.replicate state.length czero)

/-- Source `applySingleQubitGate`: returns the freshly built output array. -/
def applySingleQubitGate (state : QuantumState K) (gate : QuantumGate K)
    (targetQubit numQubits : Nat) : QuantumState K :=
  (applySingleQubitGatePair state gate targetQubit numQubits).2

/-- Body of the loop of `applyCNOTGate`: when the control bit of `i` is 1 it
swaps the entries of the output array at `i` and at the target-flipped index.
The source also computes a local `targetBit` here which it never uses. -/
def applyCNOTGateT (controlQubit targetQubit numQubits : Nat)
    (newState : QuantumState K) (i : Nat) : QuantumState K :=
  let controlBit := bitAt i (numQubits - 1 - controlQubit)
  if controlBit = 1 then
    let flippedIndex := i ^^^ (1 <<< (numQubits - 1 - targetQubit))
    let temp := newState.getD i czero
    (newState.set i (newState.getD flippedIndex czero)).set flippedIndex temp
  else newState

/-- The loop of `applyCNOTGate` over the pair (input, output); the output
starts as the copy `[...state]` and the loop reads and writes only it. -/
def applyCNOTGatePair (state : QuantumState K) (controlQubit targetQubit numQubits : Nat) :
    QuantumState K × QuantumState K :=
  (List.range state.length).foldl
    (fun p i => (p.1, applyCNOTGateT controlQubit targetQubit numQubits p.2 i))
    (state, state)

/-- Source `applyCNOTGate`. -/
def applyCNOTGate (state : QuantumState K) (controlQubit targetQubit numQubits : Nat) :
    QuantumState K :=
  (applyCNOTGatePair state controlQubit targetQubit numQubits).2

/-- Body of the probability loop of `measureQubit`: accumulates the squared
magnitude of `state[i]` into `prob0` or `prob1` according to the qubit bit. -/
def measureQubitProbsT (sqrt : K → K) (state : QuantumState K) (qubit numQubits : Nat)
    (pr : K × K) (i : Nat) : K × K :=
  let bit := bitAt i (numQubits - 1 - qubit)
  let probability := complex.magnitude sqrt (state.getD i czero) ^ 2
  if bit = 0 then (pr.1 + probability, pr.2) else (pr.1, pr.2 + probability)

/-- The probability loop of `measureQubit`: `(prob0, prob1)`. -/
def measureQubitProbs (sqrt : K → K) (state : QuantumState K) (qubit numQubits : Nat) :
    K × K :=
  (List.range state.length).foldl (measureQubitProbsT sqrt state qubit numQubits) (0, 0)

/-- Body of the collapse loop of `measureQubit`: if the qubit bit of `i`
matches the sampled result, writes the renormalized amplitude into the output
array, otherwise leaves the (zero-initialized) output untouched. -/
def measureCollapseT (qubit numQubits result : Nat) (norm : K)
    (state newState : QuantumState K) (i : Nat) : QuantumState K :=
  let bit := bitAt i (numQubits - 1 - qubit)
  if bit = result then
    newState.set i ⟨(state.getD i czero).real / norm, (state.getD i czero).imag / norm⟩
  else newState

/-- The collapse loop of `measureQubit` over the pair (input, output). -/
def measureQubitPair (sqrt : K → K) (state : QuantumState K) (qubit numQubits : Nat)
    (r : K) : QuantumState K × QuantumState K :=
  let probs := measureQubitProbs sqrt state qubit numQubits
  let result : Nat := if r < probs.1 then 0 else 1
  let norm := sqrt (if result = 0 then probs.1 else probs.2)
  (List.range state.length).foldl
    (fun p i => (p.1, measureCollapseT qubit numQubits result norm p.1 p.2 i))
    (state, List.replicate state.length czero)

/-- Source return record `{ result: 0 | 1, newState: QuantumState }`. -/
structure MeasureResult (K : Type) where
  result : Nat
  newState : QuantumState K
deriving DecidableEq

/-- Source `measureQubit`, with the draw of `Math.random()` passed as `r`. -/
def measureQubit (sqrt : K → K) (state : QuantumState K) (qubit numQubits : Nat)
    (r : K) : MeasureResult K :=
  ⟨if r < (measureQubitProbs sqrt state qubit numQubits).1 then 0 else 1,
   (measureQubitPair sqrt state qubit numQubits r).2⟩

/-- Source `getProbabilities`: squared magnitude of every amplitude. -/
def getProbabilities (sqrt : K → K) (state : QuantumState K) : List K :=
  state.map (fun amplitude => complex.magnitude sqrt amplitude ^ 2)

/-- JavaScript `i.toString(2)` for a natural number: binary digits, most
significant first, and the single digit `"0"` for zero. -/
def toString2 (i : Nat) : String :=
  if i = 0 then "0"
  else String.mk ((Nat.digits 2 i).reverse.map (fun d => if d = 1 then '1' else '0'))

/-- JavaScript `s.padStart(n, c)`: left-pad to length `n` with `c`. -/
def padStart (s : String) (n : Nat) (c : Char) : String :=
  String.mk (List.replicate (n - s.data.length) c ++ s.data)

/-- The significance threshold `1e-10` of `formatQuantumState` (exact value
`10 ^ (-10)` in the real-number model). -/
def sigThreshold : K := 1 / 10 ^ 10

/-- The coefficient string built by `formatQuantumState` for one amplitude,
with the host formatter `x.toFixed(3)` passed as `toFixed`. -/
def amplitudeStr (toFixed : K → String) (amplitude : Complex K) : String :=
  if |amplitude.real| > sigThreshold ∧ |amplitude.imag| > sigThreshold then
    "(" ++ toFixed amplitude.real ++ (if amplitude.imag ≥ 0 then "+" else "") ++
      toFixed amplitude.imag ++ "i)"
  else if |amplitude.real| > sigThreshold then toFixed amplitude.real
  else if |amplitude.imag| > sigThreshold then toFixed amplitude.imag ++ "i"
  else ""

/-- JavaScript `Array.prototype.join(sep)`. -/
def joinSep (sep : String) : List String → String
  | [] => ""
  | [t] => t
  | t :: ts => t ++ sep ++ joinSep sep ts

/-- Body of the loop of `formatQuantumState`: pushes the term for index `i`
when its magnitude clears the significance threshold.  The source also
computes a local `phase` here which it never uses. -/
def formatTermsT (toFixed : K → String) (sqrt : K → K) (state : QuantumState K)
    (numQubits : Nat) (terms : List String) (i : Nat) : List String :=
  let amplitude := state.getD i czero
  let mg := complex.magnitude sqrt amplitude
  if mg > sigThreshold then
    let binaryState := padStart (toString2 i) numQubits '0'
    terms ++ [amplitudeStr toFixed amplitude ++ "|" ++ binaryState ++ "⟩"]
  else terms

/-- Source `formatQuantumState`: joins the surviving terms with `" + "`, or
returns the literal `"|00...0⟩"` when no term clears the threshold. -/
def formatQuantumState (toFixed : K → String) (sqrt : K → K)
    (state : QuantumState K) (numQubits : Nat) : String :=
  let terms := (List.range state.length).foldl (formatTermsT toFixed sqrt state numQubits) []
  if terms.length > 0 then joinSep " + " terms else "|00...0⟩"

/-- Names of the built-in gates of the source record `gates`. -/
inductive GateName : Type
  | X | Y | Z | H | I
deriving DecidableEq

/-- Lookup in the source record `gates`. -/
def gates.byName (sqrt : K → K) : GateName → QuantumGate K
  | GateName.X => gates.X
  | GateName.Y => gates.Y
  | GateName.Z => gates.Z
  | GateName.H => gates.H sqrt
  | GateName.I => gates.I

/-- One gate application: either a built-in single-qubit gate at a target
qubit, or a CNOT with a control and a target qubit. -/
inductive QOp : Type
  | single (g : GateName) (targetQubit : Nat)
  | cnot (controlQubit targetQubit : Nat)
deriving DecidableEq

/-- Validity of a gate application for `numQubits` qubits: qubit indices in
range, and distinct control and target for CNOT. -/
def validOp (numQubits : Nat) : QOp → Prop
  | QOp.single _ t => t < numQubits
  | QOp.cnot c t => c < numQubits ∧ t < numQubits ∧ c ≠ t

/-- Apply one gate operation to a state. -/
def applyOp (sqrt : K → K) (numQubits : Nat) (state : QuantumState K) : QOp → QuantumState K
  | QOp.single g t => applySingleQubitGate state (gates.byName sqrt g) t numQubits
  | QOp.cnot c t => applyCNOTGate state c t numQubits

/-- Apply a finite sequence of gate operations in order. -/
def applyOps (sqrt : K → K) (numQubits : Nat) (state : QuantumState K)
    (ops : List QOp) : QuantumState K :=
  ops.foldl (applyOp sqrt numQubits) state

/-- Squared magnitude `re² + im²` of an amplitude (the exact value of
`complex.magnitude c ^ 2` over the reals). -/
def normSq (c : Complex K) : K := c.real * c.real + c.imag * c.imag

/-- The permutation describing the array contents after the first `k`
iterations of the CNOT loop: a pair is displaced exactly while one member has
been visited and the other has not. -/
def cnotSigma (m pc k j : Nat) : Nat :=
  if bitAt j pc = 1 ∧ ¬ (j < k ↔ j ^^^ m < k) then j ^^^ m else j

/-- The value written into cell `i` of the output array by the loop of
`applySingleQubitGate`, given the current cell content `cur`. -/
def gateWrite (state : QuantumState K) (gate : QuantumGate K) (targetQubit numQubits : Nat)
    (cur : Complex K) (i : Nat) : Complex K :=
  let targetBit := bitAt i (numQubits - 1 - targetQubit)
  let flippedIndex := i ^^^ (1 <<< (numQubits - 1 - targetQubit))
  let amp0 := complex.multiply (gAt gate targetBit 0)
    (state.getD (if targetBit = 0 then i else flippedIndex) czero)
  let amp1 := complex.multiply (gAt gate targetBit 1)
    (state.getD (if targetBit = 1 then i else flippedIndex) czero)
  complex.add cur (complex.add amp0 amp1)

/-- The ket label printed by `formatQuantumState` for basis index `i`:
a bar, the binary representation of `i` left-padded with zeros, and a ket. -/
def ketLabel (numQubits i : Nat) : String :=
  "|" ++ padStart (toString2 i) numQubits '0' ++ "⟩"

/-- Modelled from the spec: the source formats each coefficient with
JavaScript's `Number.prototype.toFixed(3)`, a host floating-point decimal
formatter that is not part of the repository.  This model is the constant
formatter agreeing with `toFixed(3)` on the only coefficient value reached by
the concrete theorems below, namely `(1).toFixed(3) = "1.000"`. -/
def toFixedModel (_ : ℝ) : String := "1.000"

/-- Column orthonormality of a 2×2 gate matrix, in components. -/
def unitaryConds (gate : QuantumGate K) : Prop :=
  (normSq (gAt gate 0 0) + normSq (gAt gate 1 0) = 1) ∧
  (normSq (gAt gate 0 1) + normSq (gAt gate 1 1) = 1) ∧
  ((gAt gate 0 0).real * (gAt gate 0 1).real + (gAt gate 0 0).imag * (gAt gate 0 1).imag
    + (gAt gate 1 0).real * (gAt gate 1 1).real + (gAt gate 1 0).imag * (gAt gate 1 1).imag
    = 0) ∧
  ((gAt gate 0 0).real * (gAt gate 0 1).imag - (gAt gate 0 0).imag * (gAt gate 0 1).real
    + (gAt gate 1 0).real * (gAt gate 1 1).imag - (gAt gate 1 0).imag * (gAt gate 1 1).real
    = 0)

/-! ### Generic list and fold lemmas -/

section ListLemmas

variable {α β : Type}

theorem getD_set_self (l : List α) (i : Nat) (x d : α) (h : i < l.length) :
    (l.set i x).getD i d = x := by
  simp [List.getD_eq_getElem?_getD, List.getElem?_set_self h]

theorem getD_set_ne (l : List α) {i j : Nat} (x d : α) (h : i ≠ j) :
    (l.set i x).getD j d = l.getD j d := by
  simp [List.getD_eq_getElem?_getD, List.getElem?_set_ne h]

theorem getD_replicate (n : Nat) (c : α) (j : Nat) :
    (List.replicate n c).getD j c = c := by
  simp only [List.getD_eq_getElem?_getD, List.getElem?_replicate]
  by_cases h : j < n <;> simp [h]

theorem list_eq_of_getD (l s : List α) (d : α) (hlen : l.length = s.length)
    (h : ∀ j, j < s.length → l.getD j d = s.getD j d) : l = s := by
  apply List.ext_getElem hlen
  intro j h1 h2
  have := h j h2
  simpa [List.getD_eq_getElem?_getD, List.getElem?_eq_getElem, h1, h2] using this

/-- A fold whose step keeps the first component of the pair fixed. -/
theorem foldl_pair_fst (T : α → β → Nat → β) (s : α) (a : β) (l : List Nat) :
    (l.foldl (fun p i => (p.1, T p.1 p.2 i)) (s, a)).1 = s := by
  induction l generalizing a with
  | nil => rfl
  | cons i l ih => exact ih (T s a i)

/-- The second component of such a fold is the fold of the step over the
second component alone. -/
theorem foldl_pair_snd (T : α → β → Nat → β) (s : α) (a : β) (l : List Nat) :
    (l.foldl (fun p i => (p.1, T p.1 p.2 i)) (s, a)).2 =
      l.foldl (fun acc i => T s acc i) a := by
  induction l generalizing a with
  | nil => rfl
  | cons i l ih => exact ih (T s a i)

end ListLemmas

section WriteOnce

variable {K : Type} [LinearOrderedField K]

/-- A loop over `i ∈ [0, k)` that (conditionally, on `P i`) overwrites cell `i`
of the array with a value computed from the current cell content and `i`
writes each cell at most once; the final array is described pointwise. -/
theorem foldl_write_once (P : Nat → Prop) [DecidablePred P]
    (g : Complex K → Nat → Complex K) (init : List (Complex K)) (k : Nat)
    (hk : k ≤ init.length) :
    (((List.range k).foldl
        (fun acc i => if P i then acc.set i (g (acc.getD i czero) i) else acc) init).length
      = init.length) ∧
    ∀ j, ((List.range k).foldl
        (fun acc i => if P i then acc.set i (g (acc.getD i czero) i) else acc) init).getD j czero
      = if j < k ∧ P j then g (init.getD j czero) j else init.getD j czero := by
  induction k with
  | zero => simp
  | succ k ih =>
    have hk' : k ≤ init.length := Nat.le_of_succ_le hk
    obtain ⟨ihlen, ihget⟩ := ih hk'
    rw [List.range_succ, List.foldl_append]
    set prev := (List.range k).foldl
      (fun acc i => if P i then acc.set i (g (acc.getD i czero) i) else acc) init with hprev
    have hprevk : prev.getD k czero = init.getD k czero := by
      rw [ihget k]
      simp
    constructor
    · by_cases hPk : P k <;> simp [hPk, ihlen]
    · intro j
      by_cases hPk : P k
      · simp only [List.foldl_cons, List.foldl_nil, if_pos hPk]
        by_cases hjk : j = k
        · subst hjk
          rw [getD_set_self _ _ _ _ (by rw [ihlen]; exact Nat.lt_of_lt_of_le (Nat.lt_succ_self j) hk)]
          rw [hprevk]
          simp [hPk, Nat.lt_succ_self]
        · rw [getD_set_ne _ _ _ (fun h => hjk h.symm), ihget j]
          exact (if_congr (by constructor <;> exact fun h => ⟨by omega, h.2⟩) rfl rfl).symm
      · simp only [List.foldl_cons, List.foldl_nil, if_neg hPk]
        rw [ihget j]
        by_cases hjk : j = k
        · subst hjk
          simp [hPk]
        · exact (if_congr (by constructor <;> exact fun h => ⟨by omega, h.2⟩) rfl rfl).symm

/-- The probability-accumulation loop computes the two filtered sums. -/
theorem foldl_probs (P : Nat → Prop) [DecidablePred P] (f : Nat → K) (k : Nat) :
    (List.range k).foldl
        (fun pr i => if P i then (pr.1 + f i, pr.2) else (pr.1, pr.2 + f i)) ((0 : K), (0 : K))
      = (∑ i ∈ (Finset.range k).filter P, f i,
         ∑ i ∈ (Finset.range k).filter (fun i => ¬ P i), f i) := by
  have main : ∀ (x y : K), (List.range k).foldl
        (fun pr i => if P i then (pr.1 + f i, pr.2) else (pr.1, pr.2 + f i)) (x, y)
      = (x + ∑ i ∈ (Finset.range k).filter P, f i,
         y + ∑ i ∈ (Finset.range k).filter (fun i => ¬ P i), f i) := by
    induction k with
    | zero => simp
    | succ k ih =>
      intro x y
      rw [List.range_succ, List.foldl_append, ih x y]
      have hk0 : k ∉ (Finset.range k).filter P := by simp
      have hk1 : k ∉ (Finset.range k).filter (fun i => ¬ P i) := by simp
      by_cases hPk : P k
      · simp only [List.foldl_cons, List.foldl_nil, if_pos hPk]
        rw [Finset.range_succ, Finset.filter_insert, Finset.filter_insert,
          if_pos hPk, if_neg (by simpa using hPk), Finset.sum_insert hk0]
        rw [Prod.mk.injEq]
        constructor <;> ring
      · simp only [List.foldl_cons, List.foldl_nil, if_neg hPk]
        rw [Finset.range_succ, Finset.filter_insert, Finset.filter_insert,
          if_neg hPk, if_pos (by simpa using hPk), Finset.sum_insert hk1]
        rw [Prod.mk.injEq]
        constructor <;> ring
  simpa using main 0 0

/-- Sum of a mapped list as a sum over its index range. -/
theorem map_sum_eq_range_sum (f : Complex K → K) (l : List (Complex K)) :
    (l.map f).sum = ∑ i ∈ Finset.range l.length, f (l.getD i czero) := by
  induction l with
  | nil => simp
  | cons a l ih =>
    rw [List.map_cons, List.sum_cons, ih]
    rw [List.length_cons, Finset.sum_range_succ']
    simp
    ring

end WriteOnce

/-! ### Bit-manipulation lemmas -/

section BitLemmas

theorem bitAt_eq_div_mod (i p : Nat) : bitAt i p = i / 2 ^ p % 2 := by
  simp [bitAt, Nat.shiftRight_eq_div_pow, Nat.and_one_is_mod]

theorem bitAt_lt_two (i p : Nat) : bitAt i p < 2 := by
  rw [bitAt_eq_div_mod]
  exact Nat.mod_lt _ (by norm_num)

theorem bitAt_eq_one_iff (i p : Nat) : bitAt i p = 1 ↔ Nat.testBit i p = true := by
  rw [bitAt_eq_div_mod, Nat.testBit_to_div_mod]
  simp

theorem bitAt_eq_zero_iff (i p : Nat) : bitAt i p = 0 ↔ Nat.testBit i p = false := by
  rw [bitAt_eq_div_mod, Nat.testBit_to_div_mod]
  have := Nat.mod_two_eq_zero_or_one (i / 2 ^ p)
  rcases this with h | h <;> simp [h]

theorem bitAt_eq_ite (i p : Nat) : bitAt i p = if Nat.testBit i p then 1 else 0 := by
  have h2 := bitAt_lt_two i p
  by_cases hb : Nat.testBit i p
  · rw [if_pos hb, (bitAt_eq_one_iff i p).2 (by simpa using hb)]
  · rw [if_neg hb, (bitAt_eq_zero_iff i p).2 (by simpa using hb)]

theorem bitAt_xor_two_pow_ne (i p q : Nat) (h : q ≠ p) : bitAt (i ^^^ 2 ^ q) p = bitAt i p := by
  rw [bitAt_eq_ite, bitAt_eq_ite, Nat.testBit_xor, Nat.testBit_two_pow_of_ne h]
  simp

theorem xor_two_pow_lt {i n : Nat} (p : Nat) (hp : p < n) (hi : i < 2 ^ n) :
    i ^^^ 2 ^ p < 2 ^ n := by
  have h2 : (2 : Nat) ^ p < 2 ^ n := Nat.pow_lt_pow_right (by norm_num) hp
  exact Nat.bitwise_lt_two_pow hi h2

theorem xor_two_pow_ne (i p : Nat) : i ^^^ 2 ^ p ≠ i := by
  intro h
  have := congrArg (fun x => Nat.testBit x p) h
  simp only [Nat.testBit_xor, Nat.testBit_two_pow_self] at this
  cases hb : Nat.testBit i p <;> simp [hb] at this

theorem xor_two_pow_cancel (i p : Nat) : (i ^^^ 2 ^ p) ^^^ 2 ^ p = i :=
  Nat.xor_cancel_right _ _

end BitLemmas

/-! ### The CNOT loop is the identity map

For distinct in-range control and target qubits, every index `i` with control
bit 1 is swapped with its partner `i ^^^ m` at iteration `i` and swapped back
at iteration `i ^^^ m` (the partner also has control bit 1), so the loop of
`applyCNOTGate` restores the original array. -/

section CNOTIdentity

variable {K : Type} [LinearOrderedField K]

theorem cnotSigma_zero (m pc j : Nat) : cnotSigma m pc 0 j = j := by
  simp [cnotSigma]

theorem cnot_fold_invariant (state : QuantumState K) (n c t : Nat)
    (hlen : state.length = 2 ^ n) (hc : c < n) (ht : t < n) (hct : c ≠ t) :
    ∀ k, k ≤ 2 ^ n →
      (((List.range k).foldl (fun acc i => applyCNOTGateT c t n acc i) state).length = 2 ^ n) ∧
      ∀ j, j < 2 ^ n →
        ((List.range k).foldl (fun acc i => applyCNOTGateT c t n acc i) state).getD j czero
          = state.getD (cnotSigma (2 ^ (n - 1 - t)) (n - 1 - c) k j) czero := by
  set pc := n - 1 - c with hpc
  set pt := n - 1 - t with hpt
  set m := 2 ^ pt with hm
  have hpcpt : pc ≠ pt := by omega
  intro k
  induction k with
  | zero =>
    intro _
    refine ⟨by simpa using hlen, ?_⟩
    intro j _
    rw [cnotSigma_zero]
    simp
  | succ k ih =>
    intro hk1
    obtain ⟨ihlen, ihget⟩ := ih (Nat.le_of_succ_le hk1)
    have hkN : k < 2 ^ n := hk1
    rw [List.range_succ, List.foldl_append, List.foldl_cons, List.foldl_nil]
    set F := (List.range k).foldl (fun acc i => applyCNOTGateT c t n acc i) state with hF
    show (applyCNOTGateT c t n F k).length = 2 ^ n ∧ _
    unfold applyCNOTGateT
    rw [show (1 <<< (n - 1 - t)) = m by rw [Nat.one_shiftLeft]]
    by_cases hcb : bitAt k (n - 1 - c) = 1
    · rw [if_pos hcb]
      set q := k ^^^ m with hq
      have hqk : q ≠ k := xor_two_pow_ne k pt
      have hqN : q < 2 ^ n := xor_two_pow_lt pt (by omega) hkN
      have hqq : q ^^^ m = k := xor_two_pow_cancel k pt
      have hcbq : bitAt q pc = 1 := by
        rw [hq, bitAt_xor_two_pow_ne k pc pt (fun h => hpcpt h.symm)]
        exact hcb
      have hlen2 : ((F.set k (F.getD q czero)).set q (F.getD k czero)).length = 2 ^ n := by
        simpa using ihlen
      refine ⟨hlen2, ?_⟩
      intro j hj
      by_cases hjk : j = k
      · subst hjk
        rw [getD_set_ne _ _ _ (fun h => hqk h), getD_set_self _ _ _ _ (by rw [ihlen]; exact hkN)]
        rw [ihget q hqN]
        congr 1
        unfold cnotSigma
        rw [← hq, hqq]
        by_cases hql : q < j
        · rw [if_pos ⟨hcbq, by omega⟩, if_neg (fun h => h.2 (by omega))]
        · rw [if_neg (fun h => h.2 (by omega)), if_pos ⟨hcb, by omega⟩]
      · by_cases hjq : j = q
        · subst hjq
          rw [getD_set_self _ _ _ _ (by rw [List.length_set, ihlen]; exact hqN)]
          rw [ihget k hkN]
          congr 1
          unfold cnotSigma
          rw [← hq, hqq]
          by_cases hql : q < k
          · rw [if_pos ⟨hcb, by omega⟩, if_neg (fun h => h.2 (by omega))]
          · rw [if_neg (fun h => h.2 (by omega)), if_pos ⟨hcbq, by omega⟩]
        · rw [getD_set_ne _ _ _ (fun h => hjq h.symm), getD_set_ne _ _ _ (fun h => hjk h.symm)]
          rw [ihget j hj]
          congr 1
          unfold cnotSigma
          have hjmk : j ^^^ m ≠ k := by
            intro h
            apply hjq
            rw [hq, ← h, Nat.xor_cancel_right]
          exact if_congr
            (by constructor <;> (rintro ⟨h1, h2⟩; exact ⟨h1, by omega⟩)) rfl rfl
    · rw [if_neg hcb]
      refine ⟨ihlen, ?_⟩
      intro j hj
      rw [ihget j hj]
      congr 1
      unfold cnotSigma
      by_cases hb : bitAt j pc = 1
      · have hjk : j ≠ k := by
          intro h
          rw [h] at hb
          exact hcb hb
        have hjmk : j ^^^ m ≠ k := by
          intro h
          rw [← h, bitAt_xor_two_pow_ne j pc pt (fun hh => hpcpt hh.symm)] at hcb
          exact hcb hb
        exact if_congr
          (by constructor <;> (rintro ⟨h1, h2⟩; exact ⟨h1, by omega⟩)) rfl rfl
      · rw [if_neg (fun h => hb h.1), if_neg (fun h => hb h.1)]

/-- On a state vector of length `2 ^ n`, with distinct in-range control and
target qubits, `applyCNOTGate` returns its input unchanged. -/
theorem cnot_eq_self (state : QuantumState K) (n c t : Nat)
    (hlen : state.length = 2 ^ n) (hc : c < n) (ht : t < n) (hct : c ≠ t) :
    applyCNOTGate state c t n = state := by
  have hsnd : applyCNOTGate state c t n =
      (List.range state.length).foldl (fun acc i => applyCNOTGateT c t n acc i) state :=
    foldl_pair_snd (fun _ acc i => applyCNOTGateT c t n acc i) state state _
  rw [hsnd, hlen]
  obtain ⟨hl, hg⟩ := cnot_fold_invariant state n c t hlen hc ht hct (2 ^ n) le_rfl
  apply list_eq_of_getD _ _ czero (by rw [hl, hlen])
  intro j hj
  rw [hlen] at hj
  rw [hg j hj]
  congr 1
  unfold cnotSigma
  rw [if_neg]
  intro h
  have hx : j ^^^ 2 ^ (n - 1 - t) < 2 ^ n := xor_two_pow_lt (n - 1 - t) (by omega) hj
  exact h.2 (by constructor <;> intro <;> assumption)

end CNOTIdentity

/-! ### Pointwise characterization of the single-qubit gate loop -/

section GateSpec

variable {K : Type} [LinearOrderedField K]

theorem foldl_write_once_all (g : Complex K → Nat → Complex K) (init : List (Complex K))
    (k : Nat) (hk : k ≤ init.length) :
    (((List.range k).foldl (fun acc i => acc.set i (g (acc.getD i czero) i)) init).length
      = init.length) ∧
    ∀ j, ((List.range k).foldl (fun acc i => acc.set i (g (acc.getD i czero) i)) init).getD j czero
      = if j < k then g (init.getD j czero) j else init.getD j czero := by
  have h := foldl_write_once (K := K) (fun _ => True) g init k hk
  simpa using h

theorem applySingleQubitGate_spec (state : QuantumState K) (gate : QuantumGate K)
    (targetQubit numQubits : Nat) :
    ((applySingleQubitGate state gate targetQubit numQubits).length = state.length) ∧
    ∀ j, (applySingleQubitGate state gate targetQubit numQubits).getD j czero
      = if j < state.length then gateWrite state gate targetQubit numQubits czero j
        else czero := by
  have h0 : applySingleQubitGate state gate targetQubit numQubits
      = (List.range state.length).foldl
          (fun acc i => acc.set i (gateWrite state gate targetQubit numQubits (acc.getD i czero) i))
          (List.replicate state.length czero) := by
    exact foldl_pair_snd
      (fun (s acc : QuantumState K) (i : Nat) =>
        acc.set i (gateWrite s gate targetQubit numQubits (acc.getD i czero) i))
      state (List.replicate state.length czero) (List.range state.length)
  obtain ⟨hl, hg⟩ := foldl_write_once_all (gateWrite state gate targetQubit numQubits)
    (List.replicate state.length czero) state.length (by simp)
  constructor
  · rw [h0, hl]
    simp
  · intro j
    rw [h0, hg j, getD_replicate]

end GateSpec

/-! ### Characterization of the measurement operation -/

section MeasureSpec

variable {K : Type} [LinearOrderedField K]

theorem measureQubitProbs_eq (sqrt : K → K) (state : QuantumState K) (qubit numQubits : Nat) :
    measureQubitProbs sqrt state qubit numQubits
      = (∑ i ∈ (Finset.range state.length).filter
            (fun i => bitAt i (numQubits - 1 - qubit) = 0),
          complex.magnitude sqrt (state.getD i czero) ^ 2,
         ∑ i ∈ (Finset.range state.length).filter
            (fun i => ¬ bitAt i (numQubits - 1 - qubit) = 0),
          complex.magnitude sqrt (state.getD i czero) ^ 2) :=
  foldl_probs (fun i => bitAt i (numQubits - 1 - qubit) = 0)
    (fun i => complex.magnitude sqrt (state.getD i czero) ^ 2) state.length

theorem measureQubit_result_eq (sqrt : K → K) (state : QuantumState K)
    (qubit numQubits : Nat) (r : K) :
    (measureQubit sqrt state qubit numQubits r).result
      = if r < (measureQubitProbs sqrt state qubit numQubits).1 then 0 else 1 := rfl

theorem measureQubit_newState_spec (sqrt : K → K) (state : QuantumState K)
    (qubit numQubits : Nat) (r : K) :
    ((measureQubit sqrt state qubit numQubits r).newState.length = state.length) ∧
    ∀ j, (measureQubit sqrt state qubit numQubits r).newState.getD j czero
      = if j < state.length ∧
            bitAt j (numQubits - 1 - qubit) = (measureQubit sqrt state qubit numQubits r).result
        then ⟨(state.getD j czero).real /
                sqrt (if (measureQubit sqrt state qubit numQubits r).result = 0
                  then (measureQubitProbs sqrt state qubit numQubits).1
                  else (measureQubitProbs sqrt state qubit numQubits).2),
              (state.getD j czero).imag /
                sqrt (if (measureQubit sqrt state qubit numQubits r).result = 0
                  then (measureQubitProbs sqrt state qubit numQubits).1
                  else (measureQubitProbs sqrt state qubit numQubits).2)⟩
        else czero := by
  have h0 : (measureQubit sqrt state qubit numQubits r).newState
      = (List.range state.length).foldl
          (fun acc i =>
            if bitAt i (numQubits - 1 - qubit)
                = (measureQubit sqrt state qubit numQubits r).result
            then acc.set i
              ⟨(state.getD i czero).real /
                  sqrt (if (measureQubit sqrt state qubit numQubits r).result = 0
                    then (measureQubitProbs sqrt state qubit numQubits).1
                    else (measureQubitProbs sqrt state qubit numQubits).2),
                (state.getD i czero).imag /
                  sqrt (if (measureQubit sqrt state qubit numQubits r).result = 0
                    then (measureQubitProbs sqrt state qubit numQubits).1
                    else (measureQubitProbs sqrt state qubit numQubits).2)⟩
            else acc)
          (List.replicate state.length czero) := by
    exact foldl_pair_snd
      (fun (s acc : QuantumState K) (i : Nat) => measureCollapseT qubit numQubits
        (if r < (measureQubitProbs sqrt state qubit numQubits).1 then 0 else 1)
        (sqrt (if (if r < (measureQubitProbs sqrt state qubit numQubits).1 then 0 else 1) = 0
          then (measureQubitProbs sqrt state qubit numQubits).1
          else (measureQubitProbs sqrt state qubit numQubits).2))
        s acc i)
      state (List.replicate state.length czero) (List.range state.length)
  obtain ⟨hl, hg⟩ := foldl_write_once
    (fun i => bitAt i (numQubits - 1 - qubit)
      = (measureQubit sqrt state qubit numQubits r).result)
    (fun _ i =>
      ⟨(state.getD i czero).real /
          sqrt (if (measureQubit sqrt state qubit numQubits r).result = 0
            then (measureQubitProbs sqrt state qubit numQubits).1
            else (measureQubitProbs sqrt state qubit numQubits).2),
        (state.getD i czero).imag /
          sqrt (if (measureQubit sqrt state qubit numQubits r).result = 0
            then (measureQubitProbs sqrt state qubit numQubits).1
            else (measureQubitProbs sqrt state qubit numQubits).2)⟩)
    (List.replicate state.length czero) state.length (by simp)
  constructor
  · rw [h0]
    simpa using hl
  · intro j
    rw [h0]
    have hgj := hg j
    rw [getD_replicate] at hgj
    exact hgj

end MeasureSpec

/-! ### Preservation of the total squared magnitude by gate application -/

section NormPreservation

variable {K : Type} [LinearOrderedField K]

theorem add_czero (x : Complex K) : complex.add czero x = x := by
  simp [complex.add, czero]

theorem normSq_nonneg (a : Complex K) : 0 ≤ normSq a :=
  add_nonneg (mul_self_nonneg _) (mul_self_nonneg _)

theorem bitAt_xor_two_pow_self (i p : Nat) : bitAt (i ^^^ 2 ^ p) p = 1 - bitAt i p := by
  rw [bitAt_eq_ite, bitAt_eq_ite, Nat.testBit_xor, Nat.testBit_two_pow_self]
  cases h : Nat.testBit i p <;> simp

/-- The key algebraic identity: a column-orthonormal 2×2 complex matrix
preserves the squared norm of a pair of amplitudes. -/
theorem normSq_gate_pair (u00 u01 u10 u11 x y : Complex K)
    (h1 : normSq u00 + normSq u10 = 1)
    (h2 : normSq u01 + normSq u11 = 1)
    (h3 : u00.real * u01.real + u00.imag * u01.imag
        + u10.real * u11.real + u10.imag * u11.imag = 0)
    (h4 : u00.real * u01.imag - u00.imag * u01.real
        + u10.real * u11.imag - u10.imag * u11.real = 0) :
    normSq (complex.add czero (complex.add (complex.multiply u00 x) (complex.multiply u01 y)))
      + normSq (complex.add czero (complex.add (complex.multiply u10 x) (complex.multiply u11 y)))
      = normSq x + normSq y := by
  simp only [normSq] at h1 h2
  simp only [normSq, complex.add, complex.multiply, czero, zero_add]
  linear_combination (x.real * x.real + x.imag * x.imag) * h1
    + (y.real * y.real + y.imag * y.imag) * h2
    + (2 * (x.real * y.real + x.imag * y.imag)) * h3
    + (2 * (x.imag * y.real - x.real * y.imag)) * h4

theorem sum_filter_bit_one (n p : Nat) (hp : p < n) (f : Nat → K) :
    ∑ i ∈ (Finset.range (2 ^ n)).filter (fun i => ¬ bitAt i p = 0), f i
      = ∑ i ∈ (Finset.range (2 ^ n)).filter (fun i => bitAt i p = 0), f (i ^^^ 2 ^ p) := by
  refine (Finset.sum_nbij' (fun i => i ^^^ 2 ^ p) (fun i => i ^^^ 2 ^ p) ?_ ?_ ?_ ?_ ?_).symm
  · intro a ha
    rw [Finset.mem_filter] at ha ⊢
    obtain ⟨haN, hab⟩ := ha
    rw [Finset.mem_range] at haN
    refine ⟨Finset.mem_range.2 (xor_two_pow_lt p hp haN), ?_⟩
    rw [bitAt_xor_two_pow_self, hab]
    simp
  · intro a ha
    rw [Finset.mem_filter] at ha ⊢
    obtain ⟨haN, hab⟩ := ha
    rw [Finset.mem_range] at haN
    refine ⟨Finset.mem_range.2 (xor_two_pow_lt p hp haN), ?_⟩
    rw [bitAt_xor_two_pow_self]
    have h2 := bitAt_lt_two a p
    omega
  · intro a _
    exact xor_two_pow_cancel a p
  · intro a _
    exact xor_two_pow_cancel a p
  · intro a _
    rfl

theorem sum_range_pow_pair (n p : Nat) (hp : p < n) (f : Nat → K) :
    ∑ i ∈ Finset.range (2 ^ n), f i
      = ∑ i ∈ (Finset.range (2 ^ n)).filter (fun i => bitAt i p = 0),
          (f i + f (i ^^^ 2 ^ p)) := by
  rw [← Finset.sum_filter_add_sum_filter_not (Finset.range (2 ^ n))
    (fun i => bitAt i p = 0) f]
  rw [sum_filter_bit_one n p hp f, ← Finset.sum_add_distrib]

/-- Evaluation of the written gate value at an index whose target bit is 0. -/
theorem gateWrite_bit0 (state : QuantumState K) (gate : QuantumGate K) (t n i : Nat)
    (hb : bitAt i (n - 1 - t) = 0) :
    gateWrite state gate t n czero i
      = complex.add czero (complex.add
          (complex.multiply (gAt gate 0 0) (state.getD i czero))
          (complex.multiply (gAt gate 0 1) (state.getD (i ^^^ 2 ^ (n - 1 - t)) czero))) := by
  unfold gateWrite
  rw [show (1 <<< (n - 1 - t)) = 2 ^ (n - 1 - t) from Nat.one_shiftLeft _]
  rw [hb]
  norm_num

/-- Evaluation of the written gate value at an index whose target bit is 1. -/
theorem gateWrite_bit1 (state : QuantumState K) (gate : QuantumGate K) (t n i : Nat)
    (hb : bitAt i (n - 1 - t) = 1) :
    gateWrite state gate t n czero i
      = complex.add czero (complex.add
          (complex.multiply (gAt gate 1 0) (state.getD (i ^^^ 2 ^ (n - 1 - t)) czero))
          (complex.multiply (gAt gate 1 1) (state.getD i czero))) := by
  unfold gateWrite
  rw [show (1 <<< (n - 1 - t)) = 2 ^ (n - 1 - t) from Nat.one_shiftLeft _]
  rw [hb]
  norm_num

/-- A single-qubit gate with orthonormal columns preserves the total squared
magnitude of a state vector of length `2 ^ n`. -/
theorem applySingleQubitGate_sum_normSq (state : QuantumState K) (gate : QuantumGate K)
    (n t : Nat) (hlen : state.length = 2 ^ n) (ht : t < n)
    (h1 : normSq (gAt gate 0 0) + normSq (gAt gate 1 0) = 1)
    (h2 : normSq (gAt gate 0 1) + normSq (gAt gate 1 1) = 1)
    (h3 : (gAt gate 0 0).real * (gAt gate 0 1).real + (gAt gate 0 0).imag * (gAt gate 0 1).imag
        + (gAt gate 1 0).real * (gAt gate 1 1).real + (gAt gate 1 0).imag * (gAt gate 1 1).imag
        = 0)
    (h4 : (gAt gate 0 0).real * (gAt gate 0 1).imag - (gAt gate 0 0).imag * (gAt gate 0 1).real
        + (gAt gate 1 0).real * (gAt gate 1 1).imag - (gAt gate 1 0).imag * (gAt gate 1 1).real
        = 0) :
    ((applySingleQubitGate state gate t n).map normSq).sum = (state.map normSq).sum := by
  obtain ⟨hL, hG⟩ := applySingleQubitGate_spec state gate t n
  set p := n - 1 - t with hp
  have hpn : p < n := by omega
  rw [map_sum_eq_range_sum, map_sum_eq_range_sum, hL, hlen]
  rw [sum_range_pow_pair n p hpn
    (fun i => normSq ((applySingleQubitGate state gate t n).getD i czero))]
  rw [sum_range_pow_pair n p hpn (fun i => normSq (state.getD i czero))]
  apply Finset.sum_congr rfl
  intro i hi
  rw [Finset.mem_filter, Finset.mem_range] at hi
  obtain ⟨hiN, hib⟩ := hi
  have hxN : i ^^^ 2 ^ p < 2 ^ n := xor_two_pow_lt p hpn hiN
  have hxb : bitAt (i ^^^ 2 ^ p) p = 1 := by
    rw [bitAt_xor_two_pow_self, hib]
  have hxx : (i ^^^ 2 ^ p) ^^^ 2 ^ p = i := xor_two_pow_cancel i p
  rw [hG i, hG (i ^^^ 2 ^ p), if_pos (by omega : i < state.length),
    if_pos (by omega : i ^^^ 2 ^ p < state.length)]
  rw [gateWrite_bit0 state gate t n i hib, gateWrite_bit1 state gate t n (i ^^^ 2 ^ p) hxb]
  rw [← hp, hxx]
  exact normSq_gate_pair _ _ _ _ _ _ h1 h2 h3 h4

end NormPreservation

/-! ### The five built-in gates are unitary; normalization invariant -/

section NormInvariant

theorem gates_unitary (g : GateName) : unitaryConds (gates.byName Real.sqrt g) := by
  have hs : Real.sqrt 2 * Real.sqrt 2 = 2 := Real.mul_self_sqrt (by norm_num)
  have hne : Real.sqrt 2 ≠ 0 := by
    intro h
    rw [h] at hs
    norm_num at hs
  cases g
  case X => norm_num [unitaryConds, gates.byName, gates.X, gAt, normSq, czero]
  case Y => norm_num [unitaryConds, gates.byName, gates.Y, gAt, normSq, czero]
  case Z => norm_num [unitaryConds, gates.byName, gates.Z, gAt, normSq, czero]
  case I => norm_num [unitaryConds, gates.byName, gates.I, gAt, normSq, czero]
  case H =>
    simp only [unitaryConds, gates.byName, gates.H, gAt, normSq, czero,
      List.getD_cons_zero, List.getD_cons_succ]
    refine ⟨?_, ?_, ?_, ?_⟩ <;> field_simp

theorem initializeQuantumState_length (n : Nat) :
    (initializeQuantumState (K := K) n).length = 2 ^ n := by
  simp [initializeQuantumState]

theorem initializeQuantumState_map_normSq_sum (n : Nat) :
    ((initializeQuantumState (K := K) n).map normSq).sum = 1 := by
  obtain ⟨m, hm⟩ : ∃ m, 2 ^ n = m + 1 :=
    ⟨2 ^ n - 1, by have := Nat.pos_pow_of_pos n (show 0 < 2 by norm_num); omega⟩
  rw [initializeQuantumState, hm, List.replicate_succ]
  simp [List.map_replicate, normSq, cone, czero, List.sum_replicate]

theorem magnitude_sq_real (a : Complex ℝ) :
    complex.magnitude Real.sqrt a ^ 2 = normSq a := by
  rw [complex.magnitude,
    Real.sq_sqrt (add_nonneg (mul_self_nonneg _) (mul_self_nonneg _))]
  rfl

theorem getProbabilities_sum_real (state : QuantumState ℝ) :
    (getProbabilities Real.sqrt state).sum = (state.map normSq).sum := by
  unfold getProbabilities
  simp only [magnitude_sq_real]

theorem applyOp_preserves (n : Nat) (state : QuantumState ℝ) (op : QOp)
    (hv : validOp n op) (hlen : state.length = 2 ^ n) :
    (applyOp Real.sqrt n state op).length = 2 ^ n ∧
    ((applyOp Real.sqrt n state op).map normSq).sum = (state.map normSq).sum := by
  cases op with
  | single g t =>
    have ht : t < n := hv
    obtain ⟨hL, _⟩ := applySingleQubitGate_spec state (gates.byName Real.sqrt g) t n
    obtain ⟨h1, h2, h3, h4⟩ := gates_unitary g
    constructor
    · show (applySingleQubitGate state (gates.byName Real.sqrt g) t n).length = 2 ^ n
      rw [hL, hlen]
    · exact applySingleQubitGate_sum_normSq state (gates.byName Real.sqrt g) n t hlen ht
        h1 h2 h3 h4
  | cnot c t =>
    obtain ⟨hc, ht, hct⟩ := hv
    have he : applyCNOTGate state c t n = state := cnot_eq_self state n c t hlen hc ht hct
    constructor
    · show (applyCNOTGate state c t n).length = 2 ^ n
      rw [he, hlen]
    · show ((applyCNOTGate state c t n).map normSq).sum = (state.map normSq).sum
      rw [he]

theorem applyOps_preserves (n : Nat) (ops : List QOp) :
    ∀ state : QuantumState ℝ, (∀ op ∈ ops, validOp n op) → state.length = 2 ^ n →
      (applyOps Real.sqrt n state ops).length = 2 ^ n ∧
      ((applyOps Real.sqrt n state ops).map normSq).sum = (state.map normSq).sum := by
  induction ops with
  | nil =>
    intro state _ hlen
    exact ⟨hlen, rfl⟩
  | cons op ops ih =>
    intro state hv hlen
    have hvop : validOp n op := hv op (by simp)
    have hvops : ∀ o ∈ ops, validOp n o := fun o ho => hv o (by simp [ho])
    obtain ⟨hL1, hS1⟩ := applyOp_preserves n state op hvop hlen
    obtain ⟨hL2, hS2⟩ := ih (applyOp Real.sqrt n state op) hvops hL1
    refine ⟨hL2, ?_⟩
    rw [show applyOps Real.sqrt n state (op :: ops)
      = applyOps Real.sqrt n (applyOp Real.sqrt n state op) ops from rfl]
    rw [hS2, hS1]

end NormInvariant

/-! ### String lemmas for the state formatter -/

section FormatLemmas

theorem data_mk (l : List Char) : (String.mk l).data = l := rfl

theorem split_at_char :
    ∀ (a u r1 r2 : List Char) (ch : Char), a ++ r1 = u ++ ch :: r2 → ch ∉ a →
      ∃ u2, u = a ++ u2 ∧ r1 = u2 ++ ch :: r2 := by
  intro a
  induction a with
  | nil =>
    intro u r1 r2 ch h _
    exact ⟨u, by simp, by simpa using h⟩
  | cons c a ih =>
    intro u r1 r2 ch h hch
    cases u with
    | nil =>
      simp only [List.cons_append, List.nil_append] at h
      exfalso
      apply hch
      injection h with h1 _
      rw [← h1]
      exact List.mem_cons_self c a
    | cons d u2 =>
      simp only [List.cons_append] at h
      injection h with hcd h2
      obtain ⟨u3, hu3, hr⟩ := ih u2 r1 r2 ch h2 (fun hm => hch (List.mem_cons_of_mem c hm))
      exact ⟨u3, by rw [hcd, hu3, List.cons_append], hr⟩

theorem first_char_eq (s r y z : List Char) (ch : Char) (hs : ch ∉ s) (hr : ch ∉ r)
    (h : s ++ ch :: y = r ++ ch :: z) : s = r ∧ y = z := by
  obtain ⟨u2, hu, hrest⟩ := split_at_char s r (ch :: y) z ch h hs
  cases u2 with
  | nil =>
    simp only [List.nil_append] at hrest
    injection hrest with _ hyz
    exact ⟨by simpa using hu.symm, hyz⟩
  | cons c u3 =>
    injection hrest with hc _
    exfalso
    apply hr
    rw [hu, ← hc]
    simp

theorem toString2_chars (i : Nat) {c : Char} (hc : c ∈ (toString2 i).data) :
    c = '0' ∨ c = '1' := by
  unfold toString2 at hc
  by_cases h : i = 0
  · rw [if_pos h] at hc
    exact Or.inl (by simpa using hc)
  · rw [if_neg h] at hc
    rw [data_mk] at hc
    obtain ⟨d, -, hd⟩ := List.mem_map.1 hc
    by_cases hd1 : d = 1
    · rw [if_pos hd1] at hd
      exact Or.inr hd.symm
    · rw [if_neg hd1] at hd
      exact Or.inl hd.symm

theorem toString2_ne_nil (i : Nat) : (toString2 i).data ≠ [] := by
  unfold toString2
  by_cases h : i = 0
  · rw [if_pos h]
    simp
  · rw [if_neg h, data_mk]
    simp [Nat.digits_ne_nil_iff_ne_zero.2 h]

theorem toString2_zero : (toString2 0).data = ['0'] := rfl

theorem toString2_shape (i : Nat) (h : i ≠ 0) : ∃ l, (toString2 i).data = '1' :: l := by
  have hne : Nat.digits 2 i ≠ [] := Nat.digits_ne_nil_iff_ne_zero.2 h
  have hlast := Nat.getLast_digit_ne_zero 2 h
  have hlt : (Nat.digits 2 i).getLast hne < 2 :=
    Nat.digits_lt_base (by norm_num) (List.getLast_mem hne)
  have h1 : (Nat.digits 2 i).getLast hne = 1 := by omega
  refine ⟨((Nat.digits 2 i).dropLast.reverse.map
    (fun d => if d = 1 then '1' else '0')), ?_⟩
  unfold toString2
  rw [if_neg h, data_mk]
  conv_lhs => rw [← List.dropLast_append_getLast hne]
  rw [List.reverse_append, List.reverse_singleton, List.singleton_append,
    List.map_cons, h1]
  rfl

theorem map_bits_inj :
    ∀ (l1 l2 : List Nat), (∀ d ∈ l1, d < 2) → (∀ d ∈ l2, d < 2) →
      l1.map (fun d => if d = 1 then '1' else '0')
        = l2.map (fun d => if d = 1 then '1' else '0') → l1 = l2 := by
  intro l1
  induction l1 with
  | nil =>
    intro l2 _ _ h
    exact (List.map_eq_nil_iff.1 h.symm).symm
  | cons d l1 ih =>
    intro l2 h1 h2 h
    cases l2 with
    | nil => simp at h
    | cons e l2 =>
      simp only [List.map_cons] at h
      obtain ⟨hde, hrest⟩ := List.cons.inj h
      have hd2 : d < 2 := h1 d (by simp)
      have he2 : e < 2 := h2 e (by simp)
      have hde2 : d = e := by
        by_cases hd1 : d = 1 <;> by_cases he1 : e = 1 <;>
          simp [hd1, he1] at hde <;> omega
      rw [hde2, ih l2 (fun x hx => h1 x (by simp [hx])) (fun x hx => h2 x (by simp [hx])) hrest]

theorem toString2_inj {i j : Nat} (h : (toString2 i).data = (toString2 j).data) : i = j := by
  by_cases hi : i = 0 <;> by_cases hj : j = 0
  · rw [hi, hj]
  · obtain ⟨l, hl⟩ := toString2_shape j hj
    rw [hi, toString2_zero, hl] at h
    injection h with h1 _
    exact absurd h1 (by decide)
  · obtain ⟨l, hl⟩ := toString2_shape i hi
    rw [hj, toString2_zero, hl] at h
    injection h with h1 _
    exact absurd h1 (by decide)
  · unfold toString2 at h
    rw [if_neg hi, if_neg hj, data_mk, data_mk] at h
    have hdig := map_bits_inj (Nat.digits 2 i).reverse (Nat.digits 2 j).reverse
      (fun d hd => Nat.digits_lt_base (by norm_num) (List.mem_reverse.1 hd))
      (fun d hd => Nat.digits_lt_base (by norm_num) (List.mem_reverse.1 hd)) h
    have := List.reverse_injective hdig
    exact Nat.digits_inj_iff.1 this

theorem padStart_data (s : String) (n : Nat) (c : Char) :
    (padStart s n c).data = List.replicate (n - s.data.length) c ++ s.data := rfl

theorem pad_zero_inj_aux (a b : Nat) (s1 s2 : List Char)
    (hshape1 : s1 = ['0'] ∨ ∃ l, s1 = '1' :: l) (hne2 : s2 ≠ [])
    (hab : a ≤ b) (h : List.replicate a '0' ++ s1 = List.replicate b '0' ++ s2) :
    s1 = s2 := by
  have hb : List.replicate b '0' = List.replicate a '0' ++ List.replicate (b - a) '0' := by
    rw [← List.replicate_add]
    congr 1
    omega
  rw [hb, List.append_assoc] at h
  have h2 : s1 = List.replicate (b - a) '0' ++ s2 := List.append_cancel_left h
  rcases Nat.eq_zero_or_pos (b - a) with hba | hba
  · rw [hba] at h2
    simpa using h2
  · obtain ⟨d, hd⟩ : ∃ d, b - a = d + 1 := ⟨b - a - 1, by omega⟩
    rw [hd, List.replicate_succ, List.cons_append] at h2
    rcases hshape1 with hs | ⟨l, hs⟩
    · rw [hs] at h2
      obtain ⟨-, h3⟩ := List.cons.inj h2
      exact absurd h3.symm (by simp [hne2])
    · rw [hs] at h2
      exact absurd (List.cons.inj h2).1 (by decide)

theorem rep_pad_inj {i j n : Nat}
    (h : (padStart (toString2 i) n '0').data = (padStart (toString2 j) n '0').data) :
    i = j := by
  rw [padStart_data, padStart_data] at h
  have hsi : (toString2 i).data = ['0'] ∨ ∃ l, (toString2 i).data = '1' :: l := by
    by_cases h0 : i = 0
    · rw [h0]
      exact Or.inl toString2_zero
    · exact Or.inr (toString2_shape i h0)
  have hsj : (toString2 j).data = ['0'] ∨ ∃ l, (toString2 j).data = '1' :: l := by
    by_cases h0 : j = 0
    · rw [h0]
      exact Or.inl toString2_zero
    · exact Or.inr (toString2_shape j h0)
  have hni := toString2_ne_nil i
  have hnj := toString2_ne_nil j
  rcases Nat.le_total (n - (toString2 i).data.length) (n - (toString2 j).data.length)
    with hab | hab
  · exact toString2_inj (pad_zero_inj_aux _ _ _ _ hsi hnj hab h)
  · exact (toString2_inj (pad_zero_inj_aux _ _ _ _ hsj hni hab h.symm)).symm

/-- In a join of terms that each consist of a bar-free coefficient, a bar, a
bar- and ket-free label and a ket, any infix of the form bar-label-ket is the
label of one of the terms. -/
theorem joinSep_term_label :
    ∀ (terms : List (String × List Char)),
      (∀ p ∈ terms, ∃ a : List Char, (p.1).data = a ++ '|' :: (p.2 ++ ['⟩'])
        ∧ ('|' : Char) ∉ a ∧ ('|' : Char) ∉ p.2 ∧ ('⟩' : Char) ∉ p.2) →
      ∀ (s u w : List Char), ('⟩' : Char) ∉ s →
        (joinSep " + " (terms.map Prod.fst)).data = u ++ '|' :: (s ++ '⟩' :: w) →
        ∃ p ∈ terms, p.2 = s := by
  intro terms
  induction terms with
  | nil =>
    intro _ s u w _ heq
    have h0 : (joinSep " + " (List.map Prod.fst ([] : List (String × List Char)))).data
        = [] := rfl
    rw [h0] at heq
    exact absurd heq.symm (by simp)
  | cons p rest ih =>
    intro hshape s u w hsk heq
    obtain ⟨a, hpdata, hab, hlb, hlk⟩ := hshape p (List.mem_cons_self p rest)
    cases rest with
    | nil =>
      rw [show ((p :: ([] : List (String × List Char))).map Prod.fst) = [p.1] from rfl] at heq
      rw [show joinSep " + " [p.1] = p.1 from rfl, hpdata] at heq
      obtain ⟨u2, -, hrest⟩ :=
        split_at_char a u ('|' :: (p.2 ++ ['⟩'])) (s ++ '⟩' :: w) '|' heq hab
      cases u2 with
      | nil =>
        simp only [List.nil_append] at hrest
        injection hrest with _ h2
        have h3 : p.2 ++ '⟩' :: [] = s ++ '⟩' :: w := by simpa using h2
        obtain ⟨hps, -⟩ := first_char_eq p.2 s [] w '⟩' hlk hsk h3
        exact ⟨p, List.mem_cons_self p [], hps⟩
      | cons c u3 =>
        injection hrest with hc h2
        exfalso
        have hm : ('|' : Char) ∈ p.2 ++ ['⟩'] := by
          rw [h2]
          simp
        rcases List.mem_append.1 hm with hm2 | hm2
        · exact hlb hm2
        · exact absurd hm2 (by decide)
    | cons q rest2 =>
      rw [show ((p :: q :: rest2).map Prod.fst)
        = p.1 :: ((q :: rest2).map Prod.fst) from rfl] at heq
      rw [show joinSep " + " (p.1 :: ((q :: rest2).map Prod.fst))
        = p.1 ++ " + " ++ joinSep " + " ((q :: rest2).map Prod.fst) from rfl] at heq
      rw [String.data_append, String.data_append, hpdata] at heq
      simp only [List.append_assoc, List.cons_append, List.singleton_append,
        List.nil_append] at heq
      obtain ⟨u2, -, hrest⟩ := split_at_char a u _ _ '|' heq hab
      cases u2 with
      | nil =>
        simp only [List.nil_append] at hrest
        injection hrest with _ h2
        have h3 : p.2 ++ '⟩' :: ((" + ").data
              ++ (joinSep " + " ((q :: rest2).map Prod.fst)).data)
            = s ++ '⟩' :: w := by simpa using h2
        obtain ⟨hps, -⟩ := first_char_eq p.2 s _ w '⟩' hlk hsk h3
        exact ⟨p, List.mem_cons_self p _, hps⟩
      | cons c u3 =>
        injection hrest with hc h2
        have h3 : (p.2 ++ '⟩' :: (" + ").data)
              ++ (joinSep " + " ((q :: rest2).map Prod.fst)).data
            = u3 ++ '|' :: (s ++ '⟩' :: w) := by
          rw [List.append_assoc, List.cons_append]
          simpa using h2
        have hnb : ('|' : Char) ∉ p.2 ++ '⟩' :: (" + ").data := by
          intro hm
          rcases List.mem_append.1 hm with hm2 | hm2
          · exact hlb hm2
          · exact absurd hm2 (by decide)
        obtain ⟨u4, -, hJ4⟩ := split_at_char (p.2 ++ '⟩' :: (" + ").data) u3 _ _ '|' h3 hnb
        obtain ⟨p2, hp2mem, hp2⟩ :=
          ih (fun p2 hp2 => hshape p2 (List.mem_cons_of_mem p hp2)) s u4 w hsk hJ4
        exact ⟨p2, List.mem_cons_of_mem p hp2mem, hp2⟩

end FormatLemmas

section FormatEval

variable {K : Type} [LinearOrderedField K]

/-- The term-collection loop of `formatQuantumState` appends, in index order,
one term per index whose magnitude clears the significance threshold. -/
theorem formatTerms_eq (toFixed : K → String) (sqrt : K → K) (state : QuantumState K)
    (numQubits : Nat) :
    ∀ (k : Nat) (acc : List String),
      (List.range k).foldl (formatTermsT toFixed sqrt state numQubits) acc
        = acc ++ ((List.range k).filter
            (fun i => decide (complex.magnitude sqrt (state.getD i czero) > sigThreshold))).map
            (fun i => amplitudeStr toFixed (state.getD i czero) ++ "|" ++
              padStart (toString2 i) numQubits '0' ++ "⟩") := by
  intro k
  induction k with
  | zero =>
    intro acc
    simp
  | succ k ih =>
    intro acc
    rw [List.range_succ, List.foldl_append, List.foldl_cons, List.foldl_nil, ih acc]
    rw [List.filter_append, List.map_append]
    by_cases hP : complex.magnitude sqrt (state.getD k czero) > sigThreshold
    · have hP2 := hP
      simp only [List.getD_eq_getElem?_getD] at hP2
      simp [formatTermsT, hP, hP2]
    · have hP2 := hP
      simp only [List.getD_eq_getElem?_getD] at hP2
      simp [formatTermsT, hP, hP2]

theorem initializeQuantumState_getD_zero (n : Nat) :
    (initializeQuantumState (K := K) n).getD 0 czero = cone := by
  unfold initializeQuantumState
  apply getD_set_self
  simp

theorem initializeQuantumState_getD_ne (n i : Nat) (h : i ≠ 0) :
    (initializeQuantumState (K := K) n).getD i czero = czero := by
  unfold initializeQuantumState
  rw [getD_set_ne _ _ _ (fun hh => h hh.symm), getD_replicate]

theorem initializeQuantumState_getElem_zero (n : Nat) :
    ((initializeQuantumState (K := K) n)[0]?).getD czero = cone := by
  rw [← List.getD_eq_getElem?_getD]
  exact initializeQuantumState_getD_zero n

theorem initializeQuantumState_getElem_ne (n i : Nat) (h : i ≠ 0) :
    ((initializeQuantumState (K := K) n)[i]?).getD czero = czero := by
  rw [← List.getD_eq_getElem?_getD]
  exact initializeQuantumState_getD_ne n i h

theorem magnitude_cone : complex.magnitude Real.sqrt (cone : Complex ℝ) = 1 := by
  rw [complex.magnitude]
  norm_num [cone, Real.sqrt_one]

theorem magnitude_czero : complex.magnitude Real.sqrt (czero : Complex ℝ) = 0 := by
  rw [complex.magnitude]
  norm_num [czero, Real.sqrt_zero]

theorem one_gt_sigThreshold : (1 : ℝ) > sigThreshold := by
  rw [sigThreshold]
  norm_num

theorem zero_not_gt_sigThreshold : ¬ (0 : ℝ) > sigThreshold := by
  rw [sigThreshold]
  norm_num

/-- The body of `formatQuantumState`, with the term loop replaced by its
filter/map characterization. -/
theorem formatQuantumState_eq (toFixed : K → String) (sqrt : K → K)
    (state : QuantumState K) (numQubits : Nat) :
    formatQuantumState toFixed sqrt state numQubits
      = (if (((List.range state.length).filter
            (fun i => decide (complex.magnitude sqrt (state.getD i czero) > sigThreshold))).map
            (fun i => amplitudeStr toFixed (state.getD i czero) ++ "|" ++
              padStart (toString2 i) numQubits '0' ++ "⟩")).length > 0
        then joinSep " + "
          (((List.range state.length).filter
            (fun i => decide (complex.magnitude sqrt (state.getD i czero) > sigThreshold))).map
            (fun i => amplitudeStr toFixed (state.getD i czero) ++ "|" ++
              padStart (toString2 i) numQubits '0' ++ "⟩"))
        else "|00...0⟩") := by
  unfold formatQuantumState
  rw [formatTerms_eq toFixed sqrt state numQubits state.length []]
  rw [List.nil_append]

theorem amplitudeStr_cone (toFixed : ℝ → String) :
    amplitudeStr toFixed (cone : Complex ℝ) = toFixed 1 := by
  unfold amplitudeStr
  rw [if_neg, if_pos]
  · show toFixed (cone : Complex ℝ).real = toFixed 1
    rfl
  · show |(cone : Complex ℝ).real| > sigThreshold
    rw [show (cone : Complex ℝ).real = 1 from rfl, sigThreshold]
    norm_num
  · intro h
    have h2 := h.2
    rw [show (cone : Complex ℝ).imag = 0 from rfl, sigThreshold] at h2
    norm_num at h2

theorem padStart_toString2_zero (n : Nat) (hn : 1 ≤ n) :
    padStart (toString2 0) n '0' = String.mk (List.replicate n '0') := by
  obtain ⟨m, hm⟩ : ∃ m, n = m + 1 := ⟨n - 1, by omega⟩
  subst hm
  apply String.ext
  rw [padStart_data, data_mk, toString2_zero]
  simp [List.replicate_succ']

/-- Evaluation of `formatQuantumState` on the initial state: the single
surviving term is the formatted coefficient 1 followed by the all-zero ket
label. -/
theorem format_init_eval (toFixed : ℝ → String) (n : Nat) (hn : 1 ≤ n) :
    formatQuantumState toFixed Real.sqrt (initializeQuantumState n) n
      = toFixed 1 ++ "|" ++ String.mk (List.replicate n '0') ++ "⟩" := by
  have hfil : ∀ k, 1 ≤ k →
      (List.range k).filter (fun i => decide
        (complex.magnitude Real.sqrt ((initializeQuantumState (K := ℝ) n).getD i czero)
          > sigThreshold)) = [0] := by
    intro k hk
    induction k with
    | zero => omega
    | succ k ihk =>
      rw [List.range_succ, List.filter_append]
      by_cases hk0 : k = 0
      · subst hk0
        simp [initializeQuantumState_getD_zero, initializeQuantumState_getElem_zero,
          magnitude_cone, one_gt_sigThreshold]
      · rw [ihk (by omega)]
        simp [initializeQuantumState_getD_ne n k hk0,
          initializeQuantumState_getElem_ne n k hk0, magnitude_czero,
          zero_not_gt_sigThreshold]
  rw [formatQuantumState_eq, initializeQuantumState_length, hfil (2 ^ n) Nat.one_le_two_pow]
  rw [List.map_cons, List.map_nil, initializeQuantumState_getD_zero]
  rw [if_pos (by simp)]
  rw [show joinSep " + " [amplitudeStr toFixed (cone : Complex ℝ) ++ "|" ++
    padStart (toString2 0) n '0' ++ "⟩"] = amplitudeStr toFixed (cone : Complex ℝ) ++ "|" ++
    padStart (toString2 0) n '0' ++ "⟩" from rfl]
  rw [amplitudeStr_cone, padStart_toString2_zero n hn]

/-- If no amplitude clears the threshold, the formatter returns the literal
all-zero fallback. -/
theorem format_all_below (toFixed : ℝ → String) (state : QuantumState ℝ) (numQubits : Nat)
    (h : ∀ i, i < state.length →
      complex.magnitude Real.sqrt (state.getD i czero) ≤ sigThreshold) :
    formatQuantumState toFixed Real.sqrt state numQubits = "|00...0⟩" := by
  rw [formatQuantumState_eq]
  have hfil : (List.range state.length).filter (fun i => decide
      (complex.magnitude Real.sqrt (state.getD i czero) > sigThreshold)) = [] := by
    rw [List.filter_eq_nil_iff]
    intro a ha
    simp only [decide_eq_true_eq]
    exact not_lt.2 (h a (List.mem_range.1 ha))
  rw [hfil]
  simp

theorem amplitudeStr_chars_sub (toFixed : K → String) (a : Complex K) {c : Char}
    (hm : c ∈ (amplitudeStr toFixed a).data) :
    (∃ x, c ∈ (toFixed x).data) ∨ c = '(' ∨ c = '+' ∨ c = 'i' ∨ c = ')' := by
  have hp : ("(" : String).data = ['('] := rfl
  have hpl : ("+" : String).data = ['+'] := rfl
  have hip : ("i)" : String).data = ['i', ')'] := rfl
  have hi : ("i" : String).data = ['i'] := rfl
  have he : ("" : String).data = [] := rfl
  unfold amplitudeStr at hm
  split_ifs at hm
  · simp only [String.data_append, List.mem_append, hp, hpl, hip] at hm
    rcases hm with ((((hm | hm) | hm) | hm) | hm)
    · exact Or.inr (Or.inl (by simpa using hm))
    · exact Or.inl ⟨_, hm⟩
    · exact Or.inr (Or.inr (Or.inl (by simpa using hm)))
    · exact Or.inl ⟨_, hm⟩
    · rcases (by simpa using hm : c = 'i' ∨ c = ')') with h | h
      · exact Or.inr (Or.inr (Or.inr (Or.inl h)))
      · exact Or.inr (Or.inr (Or.inr (Or.inr h)))
  · simp only [String.data_append, List.mem_append, hp, he, hip] at hm
    rcases hm with ((((hm | hm) | hm) | hm) | hm)
    · exact Or.inr (Or.inl (by simpa using hm))
    · exact Or.inl ⟨_, hm⟩
    · exact absurd hm (by simp)
    · exact Or.inl ⟨_, hm⟩
    · rcases (by simpa using hm : c = 'i' ∨ c = ')') with h | h
      · exact Or.inr (Or.inr (Or.inr (Or.inl h)))
      · exact Or.inr (Or.inr (Or.inr (Or.inr h)))
  · exact Or.inl ⟨_, hm⟩
  · simp only [String.data_append, List.mem_append, hi] at hm
    rcases hm with hm | hm
    · exact Or.inl ⟨_, hm⟩
    · exact Or.inr (Or.inr (Or.inr (Or.inl (by simpa using hm))))
  · exact absurd hm (by simp [he])

theorem amplitudeStr_no_bar (toFixed : K → String)
    (htf : ∀ x : K, ('|' : Char) ∉ (toFixed x).data ∧ ('⟩' : Char) ∉ (toFixed x).data)
    (a : Complex K) : ('|' : Char) ∉ (amplitudeStr toFixed a).data := by
  intro hm
  rcases amplitudeStr_chars_sub toFixed a hm with ⟨x, hx⟩ | h
  · exact (htf x).1 hx
  · rcases h with h | h | h | h <;> exact absurd h (by decide)

theorem pad_chars (i numQubits : Nat) {c : Char}
    (hm : c ∈ (padStart (toString2 i) numQubits '0').data) : c = '0' ∨ c = '1' := by
  rw [padStart_data] at hm
  rcases List.mem_append.1 hm with hm2 | hm2
  · exact Or.inl (List.eq_of_mem_replicate hm2)
  · exact toString2_chars i hm2

theorem pad_no_bar (i numQubits : Nat) :
    ('|' : Char) ∉ (padStart (toString2 i) numQubits '0').data := by
  intro hm
  rcases pad_chars i numQubits hm with h | h <;> exact absurd h (by decide)

theorem pad_no_ket (i numQubits : Nat) :
    ('⟩' : Char) ∉ (padStart (toString2 i) numQubits '0').data := by
  intro hm
  rcases pad_chars i numQubits hm with h | h <;> exact absurd h (by decide)

theorem ketLabel_data (numQubits i : Nat) :
    (ketLabel numQubits i).data
      = '|' :: ((padStart (toString2 i) numQubits '0').data ++ ['⟩']) := by
  rw [ketLabel, String.data_append, String.data_append]
  rw [show ("|" : String).data = ['|'] from rfl, show ("⟩" : String).data = ['⟩'] from rfl]
  simp

/-- A basis index whose amplitude does not clear the significance threshold
has its ket label absent from the formatted output. -/
theorem format_label_absent (toFixed : ℝ → String) (state : QuantumState ℝ)
    (numQubits i : Nat)
    (htf : ∀ x : ℝ, ('|' : Char) ∉ (toFixed x).data ∧ ('⟩' : Char) ∉ (toFixed x).data)
    (hi : i < state.length)
    (hbelow : complex.magnitude Real.sqrt (state.getD i czero) ≤ sigThreshold) :
    ¬ (ketLabel numQubits i).data
      <:+: (formatQuantumState toFixed Real.sqrt state numQubits).data := by
  intro hinf
  obtain ⟨u, w, hw⟩ := hinf
  rw [ketLabel_data] at hw
  have hw2 : (formatQuantumState toFixed Real.sqrt state numQubits).data
      = u ++ '|' :: ((padStart (toString2 i) numQubits '0').data ++ '⟩' :: w) := by
    rw [← hw]
    simp [List.append_assoc]
  rw [formatQuantumState_eq] at hw2
  set L := (List.range state.length).filter
    (fun j => decide (complex.magnitude Real.sqrt (state.getD j czero) > sigThreshold))
    with hL
  by_cases hLnil : L = []
  · rw [hLnil] at hw2
    simp only [List.map_nil, List.length_nil, gt_iff_lt, Nat.lt_irrefl, if_false] at hw2
    cases u with
    | cons c u2 =>
      injection hw2 with h1 h2
      have hmem : ('|' : Char) ∈ (['0', '0', '.', '.', '.', '0', '⟩'] : List Char) := by
        rw [h2]
        simp
      exact absurd hmem (by decide)
    | nil =>
      simp only [List.nil_append] at hw2
      injection hw2 with _ h2
      have hlit : (['0', '0', '.', '.', '.', '0', '⟩'] : List Char)
          = ['0', '0', '.', '.', '.', '0'] ++ '⟩' :: [] := rfl
      obtain ⟨hps, -⟩ := first_char_eq _ _ _ _ '⟩' (pad_no_ket i numQubits) (by decide)
        (h2.symm.trans hlit)
      have hdot : ('.' : Char) ∈ (padStart (toString2 i) numQubits '0').data := by
        rw [hps]
        simp
      rcases pad_chars i numQubits hdot with h | h <;> exact absurd h (by decide)
  · have hlen : 0 < (L.map (fun j => amplitudeStr toFixed (state.getD j czero) ++ "|" ++
        padStart (toString2 j) numQubits '0' ++ "⟩")).length := by
      rw [List.length_map]
      exact List.length_pos.2 hLnil
    rw [if_pos hlen] at hw2
    have hmap : L.map (fun j => amplitudeStr toFixed (state.getD j czero) ++ "|" ++
          padStart (toString2 j) numQubits '0' ++ "⟩")
        = (L.map (fun j => (amplitudeStr toFixed (state.getD j czero) ++ "|" ++
            padStart (toString2 j) numQubits '0' ++ "⟩",
            (padStart (toString2 j) numQubits '0').data))).map Prod.fst := by
      rw [List.map_map]
      rfl
    rw [hmap] at hw2
    have hshapes : ∀ p ∈ L.map (fun j => (amplitudeStr toFixed (state.getD j czero) ++ "|" ++
        padStart (toString2 j) numQubits '0' ++ "⟩",
        (padStart (toString2 j) numQubits '0').data)),
        ∃ a : List Char, (p.1).data = a ++ '|' :: (p.2 ++ ['⟩'])
          ∧ ('|' : Char) ∉ a ∧ ('|' : Char) ∉ p.2 ∧ ('⟩' : Char) ∉ p.2 := by
      intro p hp
      obtain ⟨j, hjL, hjp⟩ := List.mem_map.1 hp
      refine ⟨(amplitudeStr toFixed (state.getD j czero)).data, ?_, ?_, ?_, ?_⟩
      · rw [← hjp]
        simp [List.append_assoc]
      · exact amplitudeStr_no_bar toFixed htf _
      · rw [← hjp]
        exact pad_no_bar j numQubits
      · rw [← hjp]
        exact pad_no_ket j numQubits
    obtain ⟨p, hpmem, hp2⟩ := joinSep_term_label _ hshapes _ u w (pad_no_ket i numQubits) hw2
    obtain ⟨j, hjL, hjp⟩ := List.mem_map.1 hpmem
    have hrep : (padStart (toString2 j) numQubits '0').data
        = (padStart (toString2 i) numQubits '0').data := by
      rw [← hp2, ← hjp]
    have hj : j = i := rep_pad_inj hrep
    have hmem := (List.mem_filter.1 hjL).2
    rw [hj] at hmem
    simp only [decide_eq_true_eq] at hmem
    exact absurd hmem (not_lt.2 hbelow)

end FormatEval

/-! ### Claim theorems -/

section Claims

/-- C1: the spec requires CNOT(control=0, target=1) on the two-qubit basis
state |10⟩ (amplitude 1 at index 2) to produce |11⟩ (probability 1 at index
3).  The code instead swaps every qualifying pair twice, so it returns the
input unchanged: the probability vector stays `[0, 0, 1, 0]` (probability 1
still at |10⟩), contradicting the required `[0, 0, 0, 1]`.  (The second half
of the required round trip, that applying CNOT twice restores |10⟩, holds
trivially for the identity.) -/
theorem claim_C1_cnot_on_basis10 :
    applyCNOTGate ([czero, czero, cone, czero] : QuantumState ℝ) 0 1 2
        = [czero, czero, cone, czero] ∧
    getProbabilities Real.sqrt
        (applyCNOTGate ([czero, czero, cone, czero] : QuantumState ℝ) 0 1 2)
        = [0, 0, 1, 0] ∧
    ([(0 : ℝ), 0, 1, 0] : List ℝ) ≠ [0, 0, 0, 1] := by
  have hid : applyCNOTGate ([czero, czero, cone, czero] : QuantumState ℝ) 0 1 2
      = [czero, czero, cone, czero] :=
    cnot_eq_self _ 2 0 1 rfl (by norm_num) (by norm_num) (by norm_num)
  refine ⟨hid, ?_, by norm_num⟩
  rw [hid]
  simp only [getProbabilities, List.map_cons, List.map_nil, magnitude_sq_real]
  norm_num [normSq, czero, cone]

/-- C2: the spec requires the Bell-state preparation (Hadamard on qubit 0,
then CNOT(0,1), from the two-qubit initial state) to give probabilities
`[0.5, 0, 0, 0.5]`.  Because the code's CNOT is the identity, the actual
probabilities are `[0.5, 0, 0.5, 0]`. -/
theorem claim_C2_bell_probabilities :
    getProbabilities Real.sqrt
        (applyCNOTGate
          (applySingleQubitGate (initializeQuantumState 2) (gates.H Real.sqrt) 0 2) 0 1 2)
        = [1 / 2, 0, 1 / 2, 0] ∧
    ([(1 : ℝ) / 2, 0, 1 / 2, 0] : List ℝ) ≠ [1 / 2, 0, 0, 1 / 2] := by
  have hs : Real.sqrt 2 * Real.sqrt 2 = 2 := Real.mul_self_sqrt (by norm_num)
  have hinit : initializeQuantumState (K := ℝ) 2 = [cone, czero, czero, czero] := rfl
  have h1 : applySingleQubitGate ([cone, czero, czero, czero] : QuantumState ℝ)
      (gates.H Real.sqrt) 0 2
      = [⟨1 / Real.sqrt 2, 0⟩, czero, ⟨1 / Real.sqrt 2, 0⟩, czero] := by
    obtain ⟨hL, hG⟩ := applySingleQubitGate_spec
      ([cone, czero, czero, czero] : QuantumState ℝ) (gates.H Real.sqrt) 0 2
    apply list_eq_of_getD _ _ czero
    · rw [hL]
      rfl
    · intro j hj
      have hj4 : j < 4 := by simpa using hj
      interval_cases j <;>
        (rw [hG _, if_pos (by norm_num)] <;>
          simp [gateWrite, bitAt, gAt, gates.H, complex.add, complex.multiply, czero, cone] <;>
          norm_num)
  have h2 : applyCNOTGate
      ([⟨1 / Real.sqrt 2, 0⟩, czero, ⟨1 / Real.sqrt 2, 0⟩, czero] : QuantumState ℝ) 0 1 2
      = [⟨1 / Real.sqrt 2, 0⟩, czero, ⟨1 / Real.sqrt 2, 0⟩, czero] :=
    cnot_eq_self _ 2 0 1 rfl (by norm_num) (by norm_num) (by norm_num)
  constructor
  · rw [hinit, h1, h2]
    simp only [getProbabilities, List.map_cons, List.map_nil, magnitude_sq_real]
    norm_num [normSq, czero]
    have hne : Real.sqrt 2 ≠ 0 := by
      intro h0
      rw [h0] at hs
      norm_num at hs
    field_simp
  · norm_num

/-- C3: starting from the initial state on `n ≥ 1` qubits, any finite sequence
of valid built-in gate applications (X, Y, Z, H, I on an in-range target, or
CNOT with distinct in-range control and target) leaves the sum of
`getProbabilities` exactly 1 over the exact reals. -/
theorem claim_C3_normalization (n : Nat) (ops : List QOp) (hn : 1 ≤ n)
    (hv : ∀ op ∈ ops, validOp n op) :
    (getProbabilities Real.sqrt (applyOps Real.sqrt n (initializeQuantumState n) ops)).sum
      = 1 := by
  obtain ⟨-, hsum⟩ :=
    applyOps_preserves n ops (initializeQuantumState n) hv (initializeQuantumState_length n)
  rw [getProbabilities_sum_real, hsum, initializeQuantumState_map_normSq_sum]

/-- Witness for C3 at `n = 1` with the single operation H on qubit 0. -/
theorem claim_C3_normalization_witness :
    (1 ≤ 1) ∧ (∀ op ∈ [QOp.single GateName.H 0], validOp 1 op) ∧
    (getProbabilities Real.sqrt
      (applyOps Real.sqrt 1 (initializeQuantumState 1) [QOp.single GateName.H 0])).sum = 1 := by
  have hv : ∀ op ∈ [QOp.single GateName.H 0], validOp 1 op := by
    intro op hop
    rw [List.mem_singleton] at hop
    subst hop
    exact Nat.one_pos
  exact ⟨le_refl 1, hv, claim_C3_normalization 1 [QOp.single GateName.H 0] (le_refl 1) hv⟩

/-- C4: `measureQubit` returns outcome 0 exactly when the uniform draw `r` is
below `prob0`, the sum of squared magnitudes of the amplitudes whose qubit
bit is 0; and, when the sampled outcome's probability is nonzero, the
returned state has amplitude 0 at every index whose qubit bit differs from
the outcome and the input amplitude divided by the square root of the
outcome's probability at every index whose qubit bit matches it. -/
theorem claim_C4_measureQubit (state : QuantumState ℝ) (n q : Nat) (r : ℝ)
    (hlen : state.length = 2 ^ n) (hq : q < n) :
    ((measureQubit Real.sqrt state q n r).result
        = if r < ∑ i ∈ (Finset.range (2 ^ n)).filter (fun i => bitAt i (n - 1 - q) = 0),
              complex.magnitude Real.sqrt (state.getD i czero) ^ 2
          then 0 else 1) ∧
    ((if (measureQubit Real.sqrt state q n r).result = 0
        then ∑ i ∈ (Finset.range (2 ^ n)).filter (fun i => bitAt i (n - 1 - q) = 0),
          complex.magnitude Real.sqrt (state.getD i czero) ^ 2
        else ∑ i ∈ (Finset.range (2 ^ n)).filter (fun i => bitAt i (n - 1 - q) = 1),
          complex.magnitude Real.sqrt (state.getD i czero) ^ 2) ≠ 0 →
      ∀ i, i < 2 ^ n →
        (measureQubit Real.sqrt state q n r).newState.getD i czero
          = if bitAt i (n - 1 - q) = (measureQubit Real.sqrt state q n r).result
            then ⟨(state.getD i czero).real / Real.sqrt
                    (if (measureQubit Real.sqrt state q n r).result = 0
                      then ∑ i ∈ (Finset.range (2 ^ n)).filter
                            (fun i => bitAt i (n - 1 - q) = 0),
                          complex.magnitude Real.sqrt (state.getD i czero) ^ 2
                      else ∑ i ∈ (Finset.range (2 ^ n)).filter
                            (fun i => bitAt i (n - 1 - q) = 1),
                          complex.magnitude Real.sqrt (state.getD i czero) ^ 2),
                  (state.getD i czero).imag / Real.sqrt
                    (if (measureQubit Real.sqrt state q n r).result = 0
                      then ∑ i ∈ (Finset.range (2 ^ n)).filter
                            (fun i => bitAt i (n - 1 - q) = 0),
                          complex.magnitude Real.sqrt (state.getD i czero) ^ 2
                      else ∑ i ∈ (Finset.range (2 ^ n)).filter
                            (fun i => bitAt i (n - 1 - q) = 1),
                          complex.magnitude Real.sqrt (state.getD i czero) ^ 2)⟩
            else czero) := by
  have hprobs := measureQubitProbs_eq Real.sqrt state q n
  have hfil1 : (Finset.range state.length).filter (fun i => ¬ bitAt i (n - 1 - q) = 0)
      = (Finset.range state.length).filter (fun i => bitAt i (n - 1 - q) = 1) := by
    apply Finset.filter_congr
    intro i _
    have h2 := bitAt_lt_two i (n - 1 - q)
    constructor <;> intro h <;> omega
  rw [hfil1, hlen] at hprobs
  have hpr1 : (measureQubitProbs Real.sqrt state q n).1
      = ∑ i ∈ (Finset.range (2 ^ n)).filter (fun i => bitAt i (n - 1 - q) = 0),
          complex.magnitude Real.sqrt (state.getD i czero) ^ 2 := by
    rw [hprobs]
  have hpr2 : (measureQubitProbs Real.sqrt state q n).2
      = ∑ i ∈ (Finset.range (2 ^ n)).filter (fun i => bitAt i (n - 1 - q) = 1),
          complex.magnitude Real.sqrt (state.getD i czero) ^ 2 := by
    rw [hprobs]
  constructor
  · rw [measureQubit_result_eq, hpr1]
  · intro _ i hiN
    obtain ⟨-, hMg⟩ := measureQubit_newState_spec Real.sqrt state q n r
    rw [hMg i, hpr1, hpr2]
    rw [if_congr (and_iff_right (by omega : i < state.length)) rfl rfl]

/-- Witness for C4 on the one-qubit state `[1, 0]` with `r = 1/2`. -/
theorem claim_C4_measureQubit_witness :
    (([cone, czero] : QuantumState ℝ).length = 2 ^ 1) ∧ (0 < 1) ∧
    ((measureQubit Real.sqrt ([cone, czero] : QuantumState ℝ) 0 1 (1 / 2)).result
        = if (1 : ℝ) / 2 < ∑ i ∈ (Finset.range (2 ^ 1)).filter
              (fun i => bitAt i (1 - 1 - 0) = 0),
            complex.magnitude Real.sqrt (([cone, czero] : QuantumState ℝ).getD i czero) ^ 2
          then 0 else 1) :=
  ⟨rfl, Nat.one_pos,
    (claim_C4_measureQubit [cone, czero] 1 0 (1 / 2) rfl Nat.one_pos).1⟩

/-- C5: the spec requires an explicit zero-probability-measurement error
instead of a silent division by zero.  The code performs no check: on the
all-zero state both branch probabilities are 0, the draw selects outcome 1,
and the function returns normally, dividing every surviving amplitude by
`sqrt 0 = 0` (NaN in JavaScript); its return type has no error channel at
all. -/
theorem claim_C5_zero_probability_measurement :
    measureQubitProbs Real.sqrt ([czero, czero] : QuantumState ℝ) 0 1 = (0, 0) ∧
    (measureQubit Real.sqrt ([czero, czero] : QuantumState ℝ) 0 1 (1 / 2)).result = 1 ∧
    (measureQubit Real.sqrt ([czero, czero] : QuantumState ℝ) 0 1 (1 / 2)).newState
      = [czero, czero] := by
  have hprobs : measureQubitProbs Real.sqrt ([czero, czero] : QuantumState ℝ) 0 1
      = (0, 0) := by
    rw [measureQubitProbs, show ([czero, czero] : QuantumState ℝ).length = 2 from rfl,
      show List.range 2 = [0, 1] from rfl]
    simp [measureQubitProbsT, bitAt, magnitude_czero]
  have hres : (measureQubit Real.sqrt ([czero, czero] : QuantumState ℝ) 0 1 (1 / 2)).result
      = 1 := by
    rw [measureQubit_result_eq, hprobs]
    norm_num
  refine ⟨hprobs, hres, ?_⟩
  obtain ⟨hMl, hMg⟩ := measureQubit_newState_spec Real.sqrt
    ([czero, czero] : QuantumState ℝ) 0 1 (1 / 2)
  apply list_eq_of_getD _ _ czero
  · rw [hMl]
  · intro j hj
    have hj2 : j < 2 := by simpa using hj
    interval_cases j <;> rw [hMg _] <;> simp [hres, bitAt, hprobs, czero]

/-- C6: the spec requires InvalidArgument rejection at call entry for
`numQubits < 1` and for CNOT with control equal to target.  The code
performs no validation anywhere: `initializeQuantumState 0` returns the
one-element state `[1]` normally, and `applyCNOTGate` with control = target
= 0 happily computes, acting as an X gate on the state `[1, 0]` instead of
rejecting the call. -/
theorem claim_C6_no_argument_validation :
    initializeQuantumState (K := ℝ) 0 = [cone] ∧
    applyCNOTGate ([cone, czero] : QuantumState ℝ) 0 0 1 = [czero, cone] := by
  exact ⟨rfl, rfl⟩

/-- C7: on a state of length `2 ^ n` with an in-range target qubit, the
amplitude of the output of `applySingleQubitGate` at each index `i` is the
row-`bit` linear combination of the two pre-image amplitudes, where `bit` is
bit `n - 1 - t` of `i` and the partner index toggles that bit. -/
theorem claim_C7_single_gate_formula (state : QuantumState ℝ) (gate : QuantumGate ℝ)
    (t n i : Nat) (hlen : state.length = 2 ^ n) (ht : t < n) (hi : i < 2 ^ n) :
    (applySingleQubitGate state gate t n).getD i czero
      = complex.add
          (complex.multiply (gAt gate (bitAt i (n - 1 - t)) 0)
            (state.getD
              (if bitAt i (n - 1 - t) = 0 then i else i ^^^ (1 <<< (n - 1 - t))) czero))
          (complex.multiply (gAt gate (bitAt i (n - 1 - t)) 1)
            (state.getD
              (if bitAt i (n - 1 - t) = 1 then i else i ^^^ (1 <<< (n - 1 - t))) czero)) := by
  obtain ⟨-, hG⟩ := applySingleQubitGate_spec state gate t n
  rw [hG i, if_pos (by omega : i < state.length)]
  rw [show gateWrite state gate t n czero i
    = complex.add czero (complex.add
        (complex.multiply (gAt gate (bitAt i (n - 1 - t)) 0)
          (state.getD
            (if bitAt i (n - 1 - t) = 0 then i else i ^^^ (1 <<< (n - 1 - t))) czero))
        (complex.multiply (gAt gate (bitAt i (n - 1 - t)) 1)
          (state.getD
            (if bitAt i (n - 1 - t) = 1 then i else i ^^^ (1 <<< (n - 1 - t))) czero)))
    from rfl]
  rw [add_czero]

/-- Witness for C7: the X gate on the one-qubit state `[1, 0]` at index 0. -/
theorem claim_C7_single_gate_formula_witness :
    (([cone, czero] : QuantumState ℝ).length = 2 ^ 1) ∧ (0 < 1) ∧ (0 < 2 ^ 1) ∧
    ((applySingleQubitGate ([cone, czero] : QuantumState ℝ) gates.X 0 1).getD 0 czero
      = complex.add
          (complex.multiply (gAt gates.X (bitAt 0 (1 - 1 - 0)) 0)
            (([cone, czero] : QuantumState ℝ).getD
              (if bitAt 0 (1 - 1 - 0) = 0 then 0 else 0 ^^^ (1 <<< (1 - 1 - 0))) czero))
          (complex.multiply (gAt gates.X (bitAt 0 (1 - 1 - 0)) 1)
            (([cone, czero] : QuantumState ℝ).getD
              (if bitAt 0 (1 - 1 - 0) = 1 then 0 else 0 ^^^ (1 <<< (1 - 1 - 0))) czero))) :=
  ⟨rfl, Nat.one_pos, by norm_num,
    claim_C7_single_gate_formula [cone, czero] gates.X 0 1 0 rfl Nat.one_pos (by norm_num)⟩

/-- C8: each core operation writes only into its freshly created output
array; the loop of each operation, modelled as a fold over the pair
(input array, output array), leaves the input component untouched, so after
the call every amplitude of the input state equals its value before. -/
theorem claim_C8_input_not_mutated (state : QuantumState ℝ) (gate : QuantumGate ℝ)
    (c t tq q n : Nat) (r : ℝ) :
    (applySingleQubitGatePair state gate tq n).1 = state ∧
    (applyCNOTGatePair state c t n).1 = state ∧
    (measureQubitPair Real.sqrt state q n r).1 = state := by
  refine ⟨?_, ?_, ?_⟩
  · exact foldl_pair_fst
      (fun (s acc : QuantumState ℝ) (i : Nat) => applySingleQubitGateT gate tq n s acc i)
      state (List.replicate state.length czero) (List.range state.length)
  · exact foldl_pair_fst
      (fun (s acc : QuantumState ℝ) (i : Nat) => applyCNOTGateT c t n acc i)
      state state (List.range state.length)
  · exact foldl_pair_fst
      (fun (s acc : QuantumState ℝ) (i : Nat) => measureCollapseT q n
        (if r < (measureQubitProbs Real.sqrt state q n).1 then 0 else 1)
        (Real.sqrt (if (if r < (measureQubitProbs Real.sqrt state q n).1 then 0 else 1) = 0
          then (measureQubitProbs Real.sqrt state q n).1
          else (measureQubitProbs Real.sqrt state q n).2))
        s acc i)
      state (List.replicate state.length czero) (List.range state.length)

/-- C9 counterexample: on the one-qubit initial state the formatter returns
the formatted coefficient followed by the all-zero ket label, not the bare
all-zero ket label (neither `"|0⟩"` nor the fallback literal `"|00...0⟩"`). -/
theorem claim_C9_format_counterexample :
    formatQuantumState toFixedModel Real.sqrt (initializeQuantumState 1) 1 = "1.000|0⟩" ∧
    ("1.000|0⟩" : String) ≠ "|0⟩" ∧ ("1.000|0⟩" : String) ≠ "|00...0⟩" := by
  refine ⟨?_, by decide, by decide⟩
  rw [format_init_eval toFixedModel 1 (le_refl 1)]
  decide

/-- C9 (amended): for any coefficient formatter whose output never contains a
bar or a ket character (true of JavaScript's `toFixed`), the formatter on the
initial state returns the formatted coefficient of 1 followed by the all-zero
ket label (so that label is the only one in the output); the ket label of any
index whose amplitude magnitude does not exceed the significance threshold
never occurs in the output; and when no amplitude clears the threshold the
canonical all-zero fallback is returned. -/
theorem claim_C9_format (n : Nat) (toFixed : ℝ → String) (hn : 1 ≤ n)
    (htf : ∀ x : ℝ, ('|' : Char) ∉ (toFixed x).data ∧ ('⟩' : Char) ∉ (toFixed x).data) :
    (formatQuantumState toFixed Real.sqrt (initializeQuantumState n) n
        = toFixed 1 ++ "|" ++ String.mk (List.replicate n '0') ++ "⟩") ∧
    (∀ (state : QuantumState ℝ) (i : Nat), i < state.length →
        complex.magnitude Real.sqrt (state.getD i czero) ≤ sigThreshold →
        ¬ (ketLabel n i).data <:+: (formatQuantumState toFixed Real.sqrt state n).data) ∧
    (∀ state : QuantumState ℝ,
        (∀ i, i < state.length →
          complex.magnitude Real.sqrt (state.getD i czero) ≤ sigThreshold) →
        formatQuantumState toFixed Real.sqrt state n = "|00...0⟩") :=
  ⟨format_init_eval toFixed n hn,
   fun state i hi hb => format_label_absent toFixed state n i htf hi hb,
   fun state h => format_all_below toFixed state n h⟩

/-- Witness for C9 at `n = 1` with the modelled constant formatter. -/
theorem claim_C9_format_witness :
    (1 ≤ 1) ∧
    (∀ x : ℝ, ('|' : Char) ∉ (toFixedModel x).data ∧ ('⟩' : Char) ∉ (toFixedModel x).data) ∧
    (formatQuantumState toFixedModel Real.sqrt (initializeQuantumState 1) 1
        = toFixedModel 1 ++ "|" ++ String.mk (List.replicate 1 '0') ++ "⟩") :=
  ⟨le_refl 1,
   fun _ => (by decide :
     ('|' : Char) ∉ ("1.000" : String).data ∧ ('⟩' : Char) ∉ ("1.000" : String).data),
   (claim_C9_format 1 toFixedModel (le_refl 1)
     (fun _ => (by decide :
       ('|' : Char) ∉ ("1.000" : String).data ∧ ('⟩' : Char) ∉ ("1.000" : String).data))).1⟩

/-- C10: on a state of length `2 ^ n`, for distinct in-range control and
target qubits, `applyCNOTGate` returns its input unchanged: each qualifying
pair of indices is swapped once when the loop visits its lower member and
swapped back when it visits the higher member. -/
theorem claim_C10_cnot_identity (state : QuantumState ℝ) (c t n : Nat)
    (hlen : state.length = 2 ^ n) (hc : c < n) (ht : t < n) (hct : c ≠ t) :
    applyCNOTGate state c t n = state :=
  cnot_eq_self state n c t hlen hc ht hct

/-- Witness for C10 on the two-qubit basis state |00⟩. -/
theorem claim_C10_cnot_identity_witness :
    (([cone, czero, czero, czero] : QuantumState ℝ).length = 2 ^ 2) ∧
    (0 < 2) ∧ (1 < 2) ∧ ((0 : Nat) ≠ 1) ∧
    applyCNOTGate ([cone, czero, czero, czero] : QuantumState ℝ) 0 1 2
      = [cone, czero, czero, czero] :=
  ⟨rfl, by norm_num, by norm_num, by norm_num,
   claim_C10_cnot_identity [cone, czero, czero, czero] 0 1 2 rfl
     (by norm_num) (by norm_num) (by norm_num)⟩

end Claims

end QuantumMind
